import Mathlib

/-!
Verification of the gafa2025-ringScreen core components: the two IoU-based
trackers (SideScreen `modules/models/tracker.py` and the inline tracker of
RingScreen `emotion_detect_normalize_ai_ver2.py`), the stability/debounce
gate of `SideScreen/main.py`, the emotion window aggregator of the RingScreen
main loop, and the vision annotation cache of
`SideScreen/modules/vision_api/worker.py`.  All components are modelled as
pure Lean functions over rational coordinates and explicit state records;
wall-clock times are passed in explicitly, and the nondeterministic or
fallible collaborators (random tie choice, the enrichment HTTP call, the
per-track emotion analysis) are parameters of the step functions.
-/

/-- Axis-aligned bounding box with rational coordinates, mirroring the
Python list [x1, y1, x2, y2]. -/
structure Box where
  x1 : ℚ
  y1 : ℚ
  x2 : ℚ
  y2 : ℚ
deriving DecidableEq

instance : Inhabited Box := ⟨⟨0, 0, 0, 0⟩⟩

namespace SideTracker

/-- IoU of two boxes, as computed by `IoUTracker._calculate_iou` in
`SideScreen/modules/models/tracker.py` (lines 136-169): early zero on empty
intersection, otherwise intersection over union with a positivity guard. -/
def calculateIou (box1 box2 : Box) : ℚ :=
  let x1i := max box1.x1 box2.x1
  let y1i := max box1.y1 box2.y1
  let x2i := min box1.x2 box2.x2
  let y2i := min box1.y2 box2.y2
  if x2i < x1i ∨ y2i < y1i then 0
  else
    let inter := (x2i - x1i) * (y2i - y1i)
    let area1 := (box1.x2 - box1.x1) * (box1.y2 - box1.y1)
    let area2 := (box2.x2 - box2.x1) * (box2.y2 - box2.y1)
    let union := area1 + area2 - inter
    if union > 0 then inter / union else 0

/-- Per-track data of the SideScreen tracker: the dict value
`{"bbox", "missed_count", "class_id", "conf"}`. -/
structure TrackData where
  bbox : Box
  missedCount : ℕ
  classId : ℤ
  conf : ℚ
deriving DecidableEq

instance : Inhabited TrackData := ⟨⟨default, 0, 0, 0⟩⟩

/-- One entry of the per-track history list
`{"bbox", "time", "class_id", "conf"}`. -/
structure HistEntry where
  bbox : Box
  time : ℚ
  classId : ℤ
  conf : ℚ
deriving DecidableEq

/-- State of a `IoUTracker` object from `tracker.py`: thresholds, the next
fresh id, the live track dict (as an insertion-ordered association list) and
the track history dict. -/
structure TState where
  iouThreshold : ℚ
  maxMissedFrames : ℕ
  nextId : ℕ
  tracks : List (ℕ × TrackData)
  trackHistory : List (ℕ × List HistEntry)
deriving DecidableEq

/-- Fresh tracker as built by `IoUTracker.__init__`. -/
def initState (thr : ℚ) (maxMissed : ℕ) : TState :=
  ⟨thr, maxMissed, 1, [], []⟩

/-- Inputs of one `IoUTracker.update` call (the wall-clock time of the call
is made explicit, the Python reads `time.time()`). -/
structure UpdIn where
  now : ℚ
  dets : List Box
  classIds : List ℤ
  confs : List ℚ
deriving DecidableEq

/-- One row of the result list of `update`: the tuple
`(x1, y1, x2, y2, track_id, class_id, conf)`. -/
structure RRow where
  bbox : Box
  trackId : ℕ
  classId : ℤ
  conf : ℚ
deriving DecidableEq

/-- Cap a history list at 100 entries, keeping the most recent, as done by
`self.track_history[track_id] = self.track_history[track_id][-100:]`. -/
def cap100 (l : List HistEntry) : List HistEntry :=
  if l.length > 100 then l.drop (l.length - 100) else l

/-- Append a history entry for a track id, creating the list if absent
(tracker.py lines 83-97). -/
def histAppend (h : List (ℕ × List HistEntry)) (tid : ℕ) (e : HistEntry) :
    List (ℕ × List HistEntry) :=
  if h.any (fun p => p.1 = tid) then
    h.map (fun p => if p.1 = tid then (p.1, cap100 (p.2 ++ [e])) else p)
  else h ++ [(tid, cap100 [e])]

/-- Overwrite (or create) the history list of a track id, as done for newly
created tracks (tracker.py lines 116-122). -/
def histSet (h : List (ℕ × List HistEntry)) (tid : ℕ) (es : List HistEntry) :
    List (ℕ × List HistEntry) :=
  if h.any (fun p => p.1 = tid) then
    h.map (fun p => if p.1 = tid then (p.1, es) else p)
  else h ++ [(tid, es)]

/-- Best-track scan for one detection (tracker.py lines 62-73): running
maximum initialised at the IoU threshold, strict improvement required,
already-claimed track positions skipped.  Returns the chosen track position,
if any. -/
def bestTrack (mat : ℕ → ℕ → ℚ) (d : ℕ) (thr : ℚ) (claimed : List ℕ)
    (nT : ℕ) : Option ℕ :=
  ((List.range nT).foldl (fun acc t =>
    if t ∈ claimed then acc
    else if mat d t > acc.1 then (mat d t, some t) else acc)
    (thr, (none : Option ℕ))).2

/-- Matching decisions of the loop at tracker.py lines 61-101: detections are
processed in input order, each taking its best still-unclaimed track.
Returns the accepted (detection index, track position) pairs in order. -/
def greedyMatch (mat : ℕ → ℕ → ℚ) (thr : ℚ) (nD nT : ℕ) : List (ℕ × ℕ) :=
  (List.range nD).foldl (fun acc d =>
    match bestTrack mat d thr (acc.map Prod.snd) nT with
    | some t => acc ++ [(d, t)]
    | none => acc) []

/-- Combined matched-track rewrite and unmatched-track aging over the
original track list (tracker.py lines 78-81 and 126-131): a track at
position j matched by pair (d, j) is overwritten with detection d's data and
`missed_count` 0; an unmatched track ages by one and is dropped once its
count exceeds the limit.  The position offset `j` tracks the absolute
position in the original list. -/
def ageAndApply (M : List (ℕ × ℕ)) (maxM : ℕ) (newData : ℕ → TrackData) :
    ℕ → List (ℕ × TrackData) → List (ℕ × TrackData)
  | _, [] => []
  | j, tb :: rest =>
    let tail := ageAndApply M maxM newData (j + 1) rest
    match M.find? (fun p => p.2 = j) with
    | some p => (tb.1, newData p.1) :: tail
    | none =>
      if tb.2.missedCount + 1 > maxM then tail
      else (tb.1, { tb.2 with missedCount := tb.2.missedCount + 1 }) :: tail

/-- Aging pass of the zero-detection branch (tracker.py lines 39-45): every
track ages by one missed frame and is dropped once the count exceeds the
limit; the history dict is left untouched. -/
def ageAll (maxM : ℕ) (l : List (ℕ × TrackData)) : List (ℕ × TrackData) :=
  l.filterMap (fun tb =>
    if tb.2.missedCount + 1 > maxM then none
    else some (tb.1, { tb.2 with missedCount := tb.2.missedCount + 1 }))

/-- IoU matrix of one update call: entry (d, t) is the IoU of detection d
against the bbox of the track at position t (tracker.py lines 47-53). -/
def iouMat (s : TState) (dets : List Box) : ℕ → ℕ → ℚ :=
  fun d t => calculateIou (dets.getD d default) ((s.tracks.getD t default).2.bbox)

/-- The matched (detection index, track position) pairs of one update call;
empty when there are no live tracks (guard at tracker.py line 61). -/
def matchedPairs (s : TState) (dets : List Box) : List (ℕ × ℕ) :=
  if s.tracks.isEmpty then []
  else greedyMatch (iouMat s dets) s.iouThreshold dets.length s.tracks.length

/-- The ids of the tracks matched in one update call. -/
def matchedIds (s : TState) (dets : List Box) : List ℕ :=
  (matchedPairs s dets).map (fun p => (s.tracks.getD p.2 default).1)

/-- One `IoUTracker.update` call (tracker.py lines 26-134), returning the new
tracker state and the result rows. -/
def update (s : TState) (inp : UpdIn) : TState × List RRow :=
  if inp.dets.isEmpty then
    ({ s with tracks := ageAll s.maxMissedFrames s.tracks }, [])
  else
    let M := matchedPairs s inp.dets
    let matchedD := M.map Prod.fst
    let newData := fun d => TrackData.mk (inp.dets.getD d default) 0
      (inp.classIds.getD d 0) (inp.confs.getD d 0)
    let histEntryAt := fun d => HistEntry.mk (inp.dets.getD d default) inp.now
      (inp.classIds.getD d 0) (inp.confs.getD d 0)
    let matchedRows := M.map (fun p => RRow.mk (inp.dets.getD p.1 default)
      ((s.tracks.getD p.2 default).1) (inp.classIds.getD p.1 0) (inp.confs.getD p.1 0))
    let hist1 := M.foldl (fun h p =>
      histAppend h ((s.tracks.getD p.2 default).1) (histEntryAt p.1)) s.trackHistory
    let newIdx := (List.range inp.dets.length).filter (fun d => d ∉ matchedD)
    let news := newIdx.enum.map (fun q => (s.nextId + q.1, q.2))
    let hist2 := news.foldl (fun h p => histSet h p.1 [histEntryAt p.2]) hist1
    let newRows := news.map (fun p => RRow.mk (inp.dets.getD p.2 default) p.1
      (inp.classIds.getD p.2 0) (inp.confs.getD p.2 0))
    let tracks2 := ageAndApply M s.maxMissedFrames newData 0 s.tracks
      ++ news.map (fun p => (p.1, newData p.2))
    ({ s with
        nextId := s.nextId + newIdx.length
        tracks := tracks2
        trackHistory := hist2 }, matchedRows ++ newRows)

/-- Run a sequence of update calls, keeping only the states. -/
def runUpdates (s : TState) (inputs : List UpdIn) : TState :=
  inputs.foldl (fun s i => (update s i).1) s

/-- The data stored for a track id in the live set, if the id is live. -/
def lookupTrack (s : TState) (tid : ℕ) : Option TrackData :=
  (s.tracks.find? (fun tb => tb.1 = tid)).map Prod.snd

/-- The stored history list of a track id, if any. -/
def lookupHist (s : TState) (tid : ℕ) : Option (List HistEntry) :=
  (s.trackHistory.find? (fun p => p.1 = tid)).map Prod.snd

/-- Live track ids, in dict insertion order. -/
def keys (s : TState) : List ℕ := s.tracks.map Prod.fst

/-- Invariant of reachable tracker states: live ids strictly increase along
the dict insertion order and are all below the next fresh id. -/
def Inv (s : TState) : Prop :=
  (keys s).Pairwise (· < ·) ∧ ∀ k ∈ keys s, k < s.nextId

end SideTracker

namespace RingTracker

/-- IoU of a track bbox against a detection, as computed inline in
`emotion_detect_normalize_ai_ver2.py` lines 129-135. -/
def iou (b d : Box) : ℚ :=
  let xa := max b.x1 d.x1
  let ya := max b.y1 d.y1
  let xb := min b.x2 d.x2
  let yb := min b.y2 d.y2
  let wi := max 0 (xb - xa)
  let hi := max 0 (yb - ya)
  let inter := wi * hi
  let a1 := (b.x2 - b.x1) * (b.y2 - b.y1)
  let a2 := (d.x2 - d.x1) * (d.y2 - d.y1)
  let union := a1 + a2 - inter
  if union > 0 then inter / union else 0

/-- Per-track data of the RingScreen tracker: `{"bbox", "missed"}`. -/
structure RTrack where
  bbox : Box
  missed : ℕ
deriving DecidableEq

instance : Inhabited RTrack := ⟨⟨default, 0⟩⟩

/-- State of the RingScreen `IoUTracker`. -/
structure RState where
  iouThreshold : ℚ
  maxMissed : ℕ
  nextId : ℕ
  tracks : List (ℕ × RTrack)
deriving DecidableEq

/-- Fresh RingScreen tracker. -/
def rinit (thr : ℚ) (maxMissed : ℕ) : RState := ⟨thr, maxMissed, 1, []⟩

/-- Candidate triples of line 136: every (IoU, detection index, track id)
with IoU at least the threshold, enumerated detection-major in track list
order. -/
def candidatePairs (thr : ℚ) (tracks : List (ℕ × RTrack)) (ds : List Box) :
    List (ℚ × ℕ × ℕ) :=
  (List.range ds.length).flatMap (fun i =>
    tracks.filterMap (fun tb =>
      let v := iou tb.2.bbox (ds.getD i default)
      if v ≥ thr then some (v, i, tb.1) else none))

/-- Greedy acceptance loop of lines 137-141: walk the pairs in order,
accepting one when neither its track id nor its detection index is already
claimed.  Returns the accepted (track id, detection index) pairs in
acceptance order. -/
def greedyAccept : List (ℚ × ℕ × ℕ) → List ℕ → List ℕ → List (ℕ × ℕ)
  | [], _, _ => []
  | (_, i, tid) :: rest, usedT, usedD =>
    if tid ∈ usedT ∨ i ∈ usedD then greedyAccept rest usedT usedD
    else (tid, i) :: greedyAccept rest (tid :: usedT) (i :: usedD)

/-- The matched (track id, detection index) pairs of one update call with a
nonempty live set: qualifying pairs, stably sorted by IoU descending
(Python's `sorted` with `reverse=True` is stable), then greedily accepted. -/
def matchPairs (s : RState) (ds : List Box) : List (ℕ × ℕ) :=
  greedyAccept
    ((candidatePairs s.iouThreshold s.tracks ds).insertionSort
      (fun a b => b.1 ≤ a.1)) [] []

/-- One `IoUTracker.update` call of the RingScreen tracker (lines 115-153),
returning the new state and the result list of (track id, bbox) pairs. -/
def update (s : RState) (ds : List Box) : RState × List (ℕ × Box) :=
  if s.tracks.isEmpty then
    let news := ds.enum.map (fun q => (s.nextId + q.1, q.2))
    ({ s with
        nextId := s.nextId + ds.length
        tracks := s.tracks ++ news.map (fun p => (p.1, RTrack.mk p.2 0)) }, news)
  else
    let M := matchPairs s ds
    let results1 := M.map (fun p => (p.1, ds.getD p.2 default))
    let usedD := M.map Prod.snd
    let tracks1 := s.tracks.map (fun tb =>
      match M.find? (fun p => p.1 = tb.1) with
      | some p => (tb.1, RTrack.mk (ds.getD p.2 default) 0)
      | none => (tb.1, RTrack.mk tb.2.bbox (tb.2.missed + 1)))
    let newIdx := (List.range ds.length).filter (fun i => i ∉ usedD)
    let news := newIdx.enum.map (fun q => (s.nextId + q.1, ds.getD q.2 default))
    let tracks2 := tracks1 ++ news.map (fun p => (p.1, RTrack.mk p.2 0))
    let tracks3 := tracks2.filter (fun tb => tb.2.missed ≤ s.maxMissed)
    ({ s with
        nextId := s.nextId + newIdx.length
        tracks := tracks3 }, results1 ++ news)

/-- Modelled from the spec: the canonical matching policy fixed by the
specification text — collect every (detection, track) candidate pair whose
IoU qualifies against the threshold, sort all candidates by IoU descending,
then greedily accept a pair exactly when neither its detection nor its track
has already been claimed. -/
def canonicalPolicy (thr : ℚ) (tracks : List (ℕ × RTrack)) (ds : List Box) :
    List (ℕ × ℕ) :=
  let qualifying := (List.range ds.length).flatMap (fun i =>
    tracks.filterMap (fun tb =>
      let v := iou tb.2.bbox (ds.getD i default)
      if v ≥ thr then some (v, i, tb.1) else none))
  let sorted := qualifying.insertionSort (fun a b => b.1 ≤ a.1)
  greedyAccept sorted [] []

end RingTracker

/-- Lookup in an insertion-ordered association list (Python dict read). -/
def alookup {α : Type} (l : List (ℕ × α)) (k : ℕ) : Option α :=
  (l.find? (fun p => p.1 = k)).map Prod.snd

/-- Write to an insertion-ordered association list (Python dict write):
overwrite an existing key in place, otherwise append. -/
def aset {α : Type} (l : List (ℕ × α)) (k : ℕ) (v : α) : List (ℕ × α) :=
  if l.any (fun p => p.1 = k) then
    l.map (fun p => if p.1 = k then (p.1, v) else p)
  else l ++ [(k, v)]

namespace StabilityGate

/-- Configuration constants of `SideScreen/modules/config.py` used by
`send_letter_detection_results`. -/
structure GateConfig where
  stableTimeThreshold : ℚ
  stableConfThreshold : ℚ
  resendCooldown : ℚ
  sendOnlyStable : Bool
  sendOnlyChanges : Bool
deriving DecidableEq

/-- Snapshot sent for a track: `(class_id, norm_x, norm_y, norm_w, norm_h)`. -/
structure SentState where
  classId : ℤ
  normX : ℚ
  normY : ℚ
  normW : ℚ
  normH : ℚ
deriving DecidableEq

/-- Per-track dispatch bookkeeping of `GAFDetectionSystem`: the three dicts
`first_detection_time`, `last_sent_time`, `last_sent_state`. -/
structure GateState where
  firstDetectionTime : List (ℕ × ℚ)
  lastSentTime : List (ℕ × ℚ)
  lastSentState : List (ℕ × SentState)
deriving DecidableEq

/-- Normalized current state of a tracked object (main.py lines 186-198):
center coordinates and size normalized by the frame dimensions, with the y
axis flipped. -/
def currentState (fw fh : ℚ) (row : SideTracker.RRow) : SentState :=
  let w := row.bbox.x2 - row.bbox.x1
  let h := row.bbox.y2 - row.bbox.y1
  let cx := row.bbox.x1 + w / 2
  let cy := row.bbox.y1 + h / 2
  ⟨row.classId, cx / fw, 1 - cy / fh, w / fw, h / fh⟩

/-- First-detection registration (main.py lines 200-202): record the time
when the track id is first seen. -/
def registerFirst (st : GateState) (tid : ℕ) (now : ℚ) : GateState :=
  if (alookup st.firstDetectionTime tid).isNone then
    { st with firstDetectionTime := aset st.firstDetectionTime tid now }
  else st

/-- Stability flag of main.py lines 204-206. -/
def stableB (cfg : GateConfig) (now : ℚ) (st1 : GateState)
    (row : SideTracker.RRow) : Bool :=
  decide (now - (alookup st1.firstDetectionTime row.trackId).getD now
      ≥ cfg.stableTimeThreshold)
    && decide (row.conf ≥ cfg.stableConfThreshold)

/-- First-detection flag of main.py line 216. -/
def isFirstB (st1 : GateState) (tid : ℕ) : Bool :=
  (alookup st1.lastSentTime tid).isNone

/-- Cooldown flag of main.py lines 218-222. -/
def cooldownB (cfg : GateConfig) (now : ℚ) (st1 : GateState) (tid : ℕ) : Bool :=
  match alookup st1.lastSentTime tid with
  | none => true
  | some t => decide (now - t ≥ cfg.resendCooldown)

/-- State-change flag of main.py lines 224-234. -/
def changedB (st1 : GateState) (tid : ℕ) (cur : SentState) : Bool :=
  match alookup st1.lastSentState tid with
  | none => true
  | some last =>
    decide (last.classId ≠ cur.classId)
      || decide (|last.normX - cur.normX| > 1/100)
      || decide (|last.normY - cur.normY| > 1/100)
      || decide (|last.normW - cur.normW| > 1/100)
      || decide (|last.normH - cur.normH| > 1/100)

/-- Send decision of main.py line 237. -/
def emitB (cfg : GateConfig) (now : ℚ) (st1 : GateState) (tid : ℕ)
    (cur : SentState) : Bool :=
  isFirstB st1 tid
    || (cooldownB cfg now st1 tid && (!cfg.sendOnlyChanges || changedB st1 tid cur))

/-- One iteration of the loop body of `send_letter_detection_results`
(main.py lines 180-244) for a single 7-tuple row: returns the updated
bookkeeping and whether an OSC report was emitted for this row. -/
def processObj (cfg : GateConfig) (fw fh now : ℚ) (st : GateState)
    (row : SideTracker.RRow) : GateState × Bool :=
  let tid := row.trackId
  let cur := currentState fw fh row
  let st1 := registerFirst st tid now
  if cfg.sendOnlyStable && !stableB cfg now st1 row then (st1, false)
  else if emitB cfg now st1 tid cur then
    ({ st1 with
        lastSentTime := aset st1.lastSentTime tid now
        lastSentState := aset st1.lastSentState tid cur }, true)
  else (st1, false)

/-- Specification-side predicate: the track id has never been sent. -/
def IsFirst (st : GateState) (tid : ℕ) : Prop :=
  alookup st.lastSentTime tid = none

/-- Specification-side predicate: no previous send, or at least the resend
cooldown has elapsed since the last send. -/
def CooldownPassed (cfg : GateConfig) (now : ℚ) (st : GateState) (tid : ℕ) : Prop :=
  alookup st.lastSentTime tid = none ∨
    ∃ t, alookup st.lastSentTime tid = some t ∧ now - t ≥ cfg.resendCooldown

/-- Specification-side predicate: no snapshot yet, or the class differs, or
some normalized component differs by more than 0.01. -/
def StateChanged (st : GateState) (tid : ℕ) (cur : SentState) : Prop :=
  alookup st.lastSentState tid = none ∨
    ∃ last, alookup st.lastSentState tid = some last ∧
      (last.classId ≠ cur.classId ∨ |last.normX - cur.normX| > 1/100 ∨
        |last.normY - cur.normY| > 1/100 ∨ |last.normW - cur.normW| > 1/100 ∨
        |last.normH - cur.normH| > 1/100)

/-- Specification-side predicate: the track is stable (duration above the
stability time threshold and confidence above the stability confidence
threshold), with the first-detection time read after registration. -/
def Stable (cfg : GateConfig) (now : ℚ) (st : GateState)
    (row : SideTracker.RRow) : Prop :=
  now - (alookup st.firstDetectionTime row.trackId).getD now
      ≥ cfg.stableTimeThreshold ∧
    row.conf ≥ cfg.stableConfThreshold

end StabilityGate

namespace RingAgg

/-- The four fixed emotion categories of the RingScreen aggregator. -/
inductive Category
  | active
  | calm
  | hesitant
  | anxious
deriving DecidableEq

/-- The `counts` dict of the RingScreen main loop, in insertion order
active, calm, hesitant, anxious. -/
structure Counts where
  active : ℕ
  calm : ℕ
  hesitant : ℕ
  anxious : ℕ
deriving DecidableEq

/-- Index of a category (`category_to_index`). -/
def categoryIndex : Category → ℕ
  | .active => 0
  | .calm => 1
  | .hesitant => 2
  | .anxious => 3

/-- Count stored for one category. -/
def countOf (c : Counts) : Category → ℕ
  | .active => c.active
  | .calm => c.calm
  | .hesitant => c.hesitant
  | .anxious => c.anxious

/-- Increment one category counter (`counts[c] += 1`). -/
def bump (c : Counts) : Category → Counts
  | .active => { c with active := c.active + 1 }
  | .calm => { c with calm := c.calm + 1 }
  | .hesitant => { c with hesitant := c.hesitant + 1 }
  | .anxious => { c with anxious := c.anxious + 1 }

/-- The category/count items in dict order, `vals.items()`. -/
def items (c : Counts) : List (Category × ℕ) :=
  [(.active, c.active), (.calm, c.calm), (.hesitant, c.hesitant), (.anxious, c.anxious)]

/-- The maximum counter value, `max(vals.values())`. -/
def maxValue (c : Counts) : ℕ :=
  max c.active (max c.calm (max c.hesitant c.anxious))

/-- The categories tied for the maximum count, in dict order
(line 212 of emotion_detect_normalize_ai_ver2.py). -/
def maxCategories (c : Counts) : List Category :=
  ((items c).filter (fun p => p.2 = maxValue c)).map Prod.fst

/-- The dominant category chosen at summary time (lines 213-216):
`random.choice` on the tie set is modelled by an arbitrary index `r`, reduced
modulo the length of the tie set. -/
def chooseCat (c : Counts) (r : ℕ) : Category :=
  let mc := maxCategories c
  if mc.length > 1 then mc.getD (r % mc.length) .active
  else mc.getD 0 .active

/-- The value returned by `send_ai_query`: the response text on success, and
the empty string when the request fails or returns a non-200 status (the
function catches every exception internally, lines 61-84). -/
def sendAiQueryResult : Except String String → String
  | .ok s => s
  | .error _ => ""

/-- Events the aggregator emits to the OSC sink. -/
inductive AggEvent
  | agentEmotion (cat : Category) (idx : ℕ) (a c h x : ℕ)
  | agentWord (w : String)
deriving DecidableEq

/-- State of the sampling statistics of the RingScreen main loop. -/
structure AggState where
  counts : Counts
  sampleCount : ℕ
  lastSample : ℚ
deriving DecidableEq

/-- Counters after folding one frame's categorical labels into the window
(`for c in cats: counts[c] += 1`). -/
def accumCounts (st : AggState) (cats : List Category) : Counts :=
  cats.foldl bump st.counts

/-- One pass over the sampling/summary block of the RingScreen main loop
(lines 205-223): when the sample interval has elapsed, fold the frame's
categories into the counters and bump the tick counter; when the tick counter
reaches the configured number of samples, emit the summary and the enrichment
word (an enrichment failure yields the empty word) and reset counters and
tick counter to zero. -/
def sampleStep (interval : ℚ) (samples : ℕ) (now : ℚ) (cats : List Category)
    (ai : Except String String) (r : ℕ) (st : AggState) :
    AggState × List AggEvent :=
  if now - st.lastSample ≥ interval then
    let counts1 := accumCounts st cats
    let sc := st.sampleCount + 1
    if sc ≥ samples then
      let totalCat := chooseCat counts1 r
      let word := sendAiQueryResult ai
      (⟨⟨0, 0, 0, 0⟩, 0, now⟩,
        [AggEvent.agentEmotion totalCat (categoryIndex totalCat)
          counts1.active counts1.calm counts1.hesitant counts1.anxious,
          AggEvent.agentWord word])
    else (⟨counts1, sc, now⟩, [])
  else (st, [])

end RingAgg

namespace RingFrame

/-- Events the RingScreen per-frame loop emits to the OSC sink. -/
inductive FrameEvent
  | face (tid : ℕ) (cx cy w h : ℚ) (idx : ℤ)
  | noFace
deriving DecidableEq

/-- The raw-emotion-to-index map `emotion_to_index` (unknown labels map to
-1 via `.get(emo, -1)`). -/
def emotionToIndex (e : String) : ℤ :=
  if e = "neutral" then 0 else if e = "happy" then 1
  else if e = "surprise" then 2 else if e = "fear" then 3
  else if e = "sad" then 4 else if e = "angry" then 5
  else if e = "disgust" then 6 else -1

/-- The raw-emotion-to-category map `emotion_to_category` (unknown labels
yield none and are dropped). -/
def emotionToCategory (e : String) : Option RingAgg.Category :=
  if e = "neutral" then some .calm else if e = "happy" then some .active
  else if e = "surprise" then some .active else if e = "fear" then some .anxious
  else if e = "sad" then some .hesitant else if e = "angry" then some .anxious
  else if e = "disgust" then some .anxious else none

/-- The /face message of one successfully analyzed track (lines 188-196):
center and size computed with Python integer floor division, normalized by
the target frame size. -/
def faceMsg (tw th : ℚ) (tid : ℕ) (bb : Box) (emo : String) : FrameEvent :=
  let w := bb.x2 - bb.x1
  let h := bb.y2 - bb.y1
  let cx := bb.x1 + (⌊w / 2⌋ : ℤ)
  let cy := bb.y1 + (⌊h / 2⌋ : ℤ)
  .face tid (cx / tw) (cy / th) (w / tw) (h / th) (emotionToIndex emo)

/-- The per-track loop of lines 187-203: each resolved track's emotion
analysis either succeeds with a raw emotion label or raises (the exception is
caught and the track is skipped).  Returns the emitted /face events, the
collected categorical labels, and the final `has_face` flag. -/
def faceLoop (tw th : ℚ) :
    List ((ℕ × Box) × Except String String) →
      List FrameEvent × List RingAgg.Category × Bool
  | [] => ([], [], false)
  | (tb, out) :: rest =>
    match out with
    | .error _ => faceLoop tw th rest
    | .ok emo =>
      let r := faceLoop tw th rest
      let cats := match emotionToCategory emo with
        | some c => c :: r.2.1
        | none => r.2.1
      (faceMsg tw th tb.1 tb.2 emo :: r.1, cats, true)

/-- The per-frame emission pass of the RingScreen main loop (lines 186-204):
process every resolved track with its analysis outcome, then emit /no_face
exactly when no track's analysis succeeded. -/
def frameStep (tw th : ℚ) (tracks : List (ℕ × Box))
    (outcomes : List (Except String String)) :
    List FrameEvent × List RingAgg.Category :=
  let r := faceLoop tw th (tracks.zip outcomes)
  (r.1 ++ (if r.2.2 then [] else [FrameEvent.noFace]), r.2.1)

end RingFrame

namespace VisionCache

/-- One cached annotation `(box, text, timestamp)` of `AnythingWorker`. -/
structure CEntry where
  box : Box
  text : String
  ts : ℚ
deriving DecidableEq

/-- Cache limits from config.py: `VISION_API_BOX_DURATION` and
`VISION_API_MAX_ONSCREEN`. -/
structure CacheConfig where
  boxDuration : ℚ
  maxOnscreen : ℕ
deriving DecidableEq

/-- TTL pass: keep the entries whose age does not exceed the duration
(worker.py lines 59-65 and 236-238). -/
def filterLive (now dur : ℚ) (l : List CEntry) : List CEntry :=
  l.filter (fun e => now - e.ts ≤ dur)

/-- The first entry attaining the minimal creation timestamp, as returned by
`min(self.boxes, key=lambda x: x[2])` (Python `min` keeps the earliest of
equal keys). -/
def findOldest : List CEntry → Option CEntry
  | [] => none
  | e :: rest =>
    match findOldest rest with
    | none => some e
    | some m => if e.ts ≤ m.ts then some e else some m

/-- Remove the first entry with the minimal creation timestamp
(`self.boxes.remove(oldest_box)`). -/
def removeOldest (l : List CEntry) : List CEntry :=
  match findOldest l with
  | none => l
  | some m => l.erase m

/-- The read-path capacity loop of `get_current_boxes` (lines 68-71):
`while len(boxes) > max_onscreen: remove oldest`, run on fuel bounded by the
list length. -/
def evictGT (maxN : ℕ) : ℕ → List CEntry → List CEntry
  | 0, l => l
  | fuel + 1, l =>
    if l.length > maxN then evictGT maxN fuel (removeOldest l) else l

/-- The insert-path capacity loop of `api_call_thread` (lines 241-244):
`while len(boxes) >= max_onscreen: remove oldest`.  The extra nonemptiness
guard only totalizes the case `max_onscreen = 0`, where the Python loop
raises on `min([])`; for `max_onscreen ≥ 1` the loop never reaches an empty
list and the guard is vacuous. -/
def evictGE (maxN : ℕ) : ℕ → List CEntry → List CEntry
  | 0, l => l
  | fuel + 1, l =>
    if l.length ≥ maxN ∧ l ≠ [] then evictGE maxN fuel (removeOldest l) else l

/-- `get_current_boxes` (worker.py lines 52-73): expire by TTL, then evict
down to the capacity, oldest first; returns the resulting cache contents. -/
def getCurrentBoxes (cfg : CacheConfig) (now : ℚ) (l : List CEntry) :
    List CEntry :=
  let a := filterLive now cfg.boxDuration l
  evictGT cfg.maxOnscreen a.length a

/-- The cache mutation of a successful enrichment call (worker.py lines
234-248): expire by TTL, evict down below the capacity (oldest first), then
append the new annotation stamped with the current time. -/
def insertEntry (cfg : CacheConfig) (now : ℚ) (l : List CEntry) (b : Box)
    (txt : String) : List CEntry :=
  let a := filterLive now cfg.boxDuration l
  evictGE cfg.maxOnscreen a.length a ++ [⟨b, txt, now⟩]

end VisionCache

namespace RingTracker

/-- Live track ids of a RingScreen tracker state, in dict insertion order. -/
def rkeys (s : RState) : List ℕ := s.tracks.map Prod.fst

/-- Fold a sequence of detection lists through the RingScreen update. -/
def runRUpdates (s : RState) (dss : List (List Box)) : RState :=
  dss.foldl (fun acc ds => (update acc ds).1) s

/-- Id discipline invariant of the RingScreen tracker: live ids strictly
increase in dict order and every live id is below next_id. -/
def RInv (s : RState) : Prop :=
  (rkeys s).Pairwise (· < ·) ∧ ∀ k ∈ rkeys s, k < s.nextId

end RingTracker

namespace RingAgg

/-- Recognizer for summary events. -/
def isSummary : AggEvent → Bool
  | .agentEmotion _ _ _ _ _ _ => true
  | .agentWord _ => false

theorem maxValue_attained (c : Counts) :
    maxValue c = c.active ∨ maxValue c = c.calm ∨ maxValue c = c.hesitant ∨
      maxValue c = c.anxious := by
  simp only [maxValue]
  omega

theorem maxCategories_ne_nil (c : Counts) : maxCategories c ≠ [] := by
  rcases maxValue_attained c with h | h | h | h
  · have hm : (Category.active, c.active) ∈
        (items c).filter (fun p => p.2 = maxValue c) :=
      List.mem_filter.mpr ⟨by simp [items], by simp [h]⟩
    exact List.ne_nil_of_mem (List.mem_map_of_mem Prod.fst hm)
  · have hm : (Category.calm, c.calm) ∈
        (items c).filter (fun p => p.2 = maxValue c) :=
      List.mem_filter.mpr ⟨by simp [items], by simp [h]⟩
    exact List.ne_nil_of_mem (List.mem_map_of_mem Prod.fst hm)
  · have hm : (Category.hesitant, c.hesitant) ∈
        (items c).filter (fun p => p.2 = maxValue c) :=
      List.mem_filter.mpr ⟨by simp [items], by simp [h]⟩
    exact List.ne_nil_of_mem (List.mem_map_of_mem Prod.fst hm)
  · have hm : (Category.anxious, c.anxious) ∈
        (items c).filter (fun p => p.2 = maxValue c) :=
      List.mem_filter.mpr ⟨by simp [items], by simp [h]⟩
    exact List.ne_nil_of_mem (List.mem_map_of_mem Prod.fst hm)

theorem mem_maxCategories (c : Counts) (x : Category) (hx : x ∈ maxCategories c) :
    countOf c x = maxValue c := by
  simp only [maxCategories, items, List.mem_map, List.mem_filter] at hx
  obtain ⟨p, ⟨hp, hv⟩, hfst⟩ := hx
  subst hfst
  rw [decide_eq_true_eq] at hv
  simp only [List.mem_cons, List.mem_singleton, List.not_mem_nil, or_false] at hp
  rcases hp with h | h | h | h <;> (subst h; simpa [countOf] using hv)

theorem chooseCat_mem (c : Counts) (r : ℕ) : chooseCat c r ∈ maxCategories c := by
  have hne := maxCategories_ne_nil c
  have hlen : 0 < (maxCategories c).length := List.length_pos.mpr hne
  unfold chooseCat
  by_cases h : (maxCategories c).length > 1
  · simp only [h, if_true]
    have hm : r % (maxCategories c).length < (maxCategories c).length :=
      Nat.mod_lt _ hlen
    rw [List.getD_eq_getElem _ _ hm]
    exact List.getElem_mem hm
  · simp only [h, if_false]
    rw [List.getD_eq_getElem _ _ hlen]
    exact List.getElem_mem hlen

end RingAgg

/-- C7: whenever a summary window completes, the chosen dominant category of
the emitted summary event is a member of the set of categories whose count
equals the maximum count of the accumulated window counters; in particular,
for counters {active 5, calm 5, hesitant 1, anxious 1} the chosen category is
always an element of {active, calm}, whatever the random tie choice. -/
theorem majority_tie_membership :
    (∀ (interval : ℚ) (samples : ℕ) (now : ℚ) (cats : List RingAgg.Category)
        (ai : Except String String) (r : ℕ) (st : RingAgg.AggState)
        (cat : RingAgg.Category) (idx a b h x : ℕ),
      now - st.lastSample ≥ interval →
      st.sampleCount + 1 ≥ samples →
      RingAgg.AggEvent.agentEmotion cat idx a b h x ∈
          (RingAgg.sampleStep interval samples now cats ai r st).2 →
      cat ∈ RingAgg.maxCategories (RingAgg.accumCounts st cats) ∧
        RingAgg.countOf (RingAgg.accumCounts st cats) cat =
          RingAgg.maxValue (RingAgg.accumCounts st cats)) ∧
    (∀ r : ℕ, RingAgg.chooseCat ⟨5, 5, 1, 1⟩ r = RingAgg.Category.active ∨
        RingAgg.chooseCat ⟨5, 5, 1, 1⟩ r = RingAgg.Category.calm) := by
  constructor
  · intro interval samples now cats ai r st cat idx a b h x h1 h2 hmem
    simp only [RingAgg.sampleStep, if_pos h1, ge_iff_le, if_pos h2,
      List.mem_cons, List.not_mem_nil, or_false,
      RingAgg.AggEvent.agentEmotion.injEq] at hmem
    rcases hmem with ⟨hcat, _⟩ | hbad
    · subst hcat
      exact ⟨RingAgg.chooseCat_mem _ r,
        RingAgg.mem_maxCategories _ _ (RingAgg.chooseCat_mem _ r)⟩
    · exact absurd hbad (by simp)
  · intro r
    have hmc : RingAgg.maxCategories ⟨5, 5, 1, 1⟩ =
        [RingAgg.Category.active, RingAgg.Category.calm] := by decide
    unfold RingAgg.chooseCat
    rw [hmc]
    rcases Nat.mod_two_eq_zero_or_one r with h | h <;> simp [h]

/-- Witness for majority_tie_membership at a concrete completing window. -/
theorem majority_tie_membership_witness :
    RingAgg.Category.active ∈
        RingAgg.maxCategories
          (RingAgg.accumCounts ⟨⟨0, 0, 0, 0⟩, 11, 0⟩ [RingAgg.Category.active]) ∧
      RingAgg.countOf
          (RingAgg.accumCounts ⟨⟨0, 0, 0, 0⟩, 11, 0⟩ [RingAgg.Category.active])
          RingAgg.Category.active =
        RingAgg.maxValue
          (RingAgg.accumCounts ⟨⟨0, 0, 0, 0⟩, 11, 0⟩ [RingAgg.Category.active]) :=
  majority_tie_membership.1 3 12 10 [RingAgg.Category.active] (.ok "ok") 0
    ⟨⟨0, 0, 0, 0⟩, 11, 0⟩ RingAgg.Category.active 0 1 0 0 0
    (by norm_num) (by norm_num)
    (by norm_num [RingAgg.sampleStep, RingAgg.accumCounts, RingAgg.bump,
      show RingAgg.chooseCat ⟨1, 0, 0, 0⟩ 0 = RingAgg.Category.active from by decide,
      RingAgg.categoryIndex])

/-- C8: every time a summary window completes, all category counters and the
tick counter are reset to zero, the summary is emitted exactly once, and this
holds whatever the outcome of the enrichment call (including failure). -/
theorem window_reset_on_completion :
    ∀ (interval : ℚ) (samples : ℕ) (now : ℚ) (cats : List RingAgg.Category)
      (ai : Except String String) (r : ℕ) (st : RingAgg.AggState),
      now - st.lastSample ≥ interval →
      st.sampleCount + 1 ≥ samples →
      (RingAgg.sampleStep interval samples now cats ai r st).1.counts =
          ⟨0, 0, 0, 0⟩ ∧
        (RingAgg.sampleStep interval samples now cats ai r st).1.sampleCount = 0 ∧
        ((RingAgg.sampleStep interval samples now cats ai r st).2.countP
          (fun e => RingAgg.isSummary e)) = 1 := by
  intro interval samples now cats ai r st h1 h2
  simp [RingAgg.sampleStep, if_pos h1, ge_iff_le, if_pos h2,
    List.countP_cons, RingAgg.isSummary]

/-- Witness for window_reset_on_completion with a failing enrichment call. -/
theorem window_reset_on_completion_witness :
    (RingAgg.sampleStep 3 12 10 [RingAgg.Category.calm] (.error "timeout") 0
          ⟨⟨2, 3, 4, 5⟩, 11, 0⟩).1.counts = ⟨0, 0, 0, 0⟩ ∧
      (RingAgg.sampleStep 3 12 10 [RingAgg.Category.calm] (.error "timeout") 0
          ⟨⟨2, 3, 4, 5⟩, 11, 0⟩).1.sampleCount = 0 ∧
      ((RingAgg.sampleStep 3 12 10 [RingAgg.Category.calm] (.error "timeout") 0
          ⟨⟨2, 3, 4, 5⟩, 11, 0⟩).2.countP (fun e => RingAgg.isSummary e)) = 1 :=
  window_reset_on_completion 3 12 10 [RingAgg.Category.calm] (.error "timeout") 0
    ⟨⟨2, 3, 4, 5⟩, 11, 0⟩ (by norm_num) (by norm_num)

namespace RingFrame

theorem faceLoop_flag (tw th : ℚ)
    (l : List ((ℕ × Box) × Except String String)) :
    (faceLoop tw th l).2.2 = l.any (fun p => p.2.isOk) := by
  induction l with
  | nil => rfl
  | cons hd tl ih =>
    obtain ⟨tb, out⟩ := hd
    cases out with
    | error e => simpa [faceLoop, Except.isOk, Except.toBool] using ih
    | ok emo => simp [faceLoop, Except.isOk, Except.toBool]

theorem faceLoop_no_noFace (tw th : ℚ)
    (l : List ((ℕ × Box) × Except String String)) :
    FrameEvent.noFace ∉ (faceLoop tw th l).1 := by
  induction l with
  | nil => simp [faceLoop]
  | cons hd tl ih =>
    obtain ⟨tb, out⟩ := hd
    cases out with
    | error e => simpa [faceLoop] using ih
    | ok emo => simp [faceLoop, faceMsg]; exact ih

end RingFrame

/-- C9 counterexample: a frame with one live resolved track whose emotion
analysis raises still emits the object/absent event, contradicting the claim
that the event is not emitted on a frame that has live tracks. -/
theorem absent_event_counterexample :
    ([((1 : ℕ), (⟨0, 0, 10, 10⟩ : Box))] ≠ ([] : List (ℕ × Box))) ∧
      (RingFrame.frameStep 1280 720 [(1, ⟨0, 0, 10, 10⟩)]
          [Except.error "analyze failed"]).1 =
        [RingFrame.FrameEvent.noFace] := by
  constructor
  · simp
  · rfl

/-- C9 amended: the object/absent event is emitted exactly once on every
frame where no track's emotion analysis succeeds — in particular exactly once
on every frame with zero live resolved tracks — and it is not emitted when
some track's analysis succeeds; a frame with live tracks can therefore still
emit it, when every per-track analysis fails. -/
theorem absent_event_amended :
    ∀ (tw th : ℚ) (tracks : List (ℕ × Box))
      (outcomes : List (Except String String)),
      outcomes.length = tracks.length →
      ((RingFrame.frameStep tw th tracks outcomes).1.count
            RingFrame.FrameEvent.noFace =
          if outcomes.any (fun o => o.isOk) then 0 else 1) ∧
        (tracks = [] →
          (RingFrame.frameStep tw th tracks outcomes).1 =
            [RingFrame.FrameEvent.noFace]) := by
  intro tw th tracks outcomes hlen
  have hzip : ∀ (l1 : List (ℕ × Box)) (l2 : List (Except String String)),
      l2.length ≤ l1.length →
      ((l1.zip l2).any fun p => p.2.isOk) = l2.any (fun o => o.isOk) := by
    intro l1
    induction l1 with
    | nil =>
      intro l2 h2
      have : l2 = [] := List.length_eq_zero.mp (Nat.le_zero.mp (by simpa using h2))
      subst this
      simp
    | cons a l1 ih =>
      intro l2 h2
      cases l2 with
      | nil => simp
      | cons b l2 =>
        simp only [List.zip_cons_cons, List.any_cons]
        rw [ih l2 (by simpa using h2)]
  have hzip := hzip tracks outcomes (le_of_eq hlen)
  constructor
  · unfold RingFrame.frameStep
    rw [List.count_append]
    have h0 : (RingFrame.faceLoop tw th (tracks.zip outcomes)).1.count
        RingFrame.FrameEvent.noFace = 0 :=
      List.count_eq_zero.mpr (RingFrame.faceLoop_no_noFace tw th _)
    rw [h0, RingFrame.faceLoop_flag, hzip]
    by_cases h : outcomes.any (fun o => o.isOk)
    · simp [h]
    · simp [h]
  · intro htr
    subst htr
    simp [RingFrame.frameStep, RingFrame.faceLoop]

/-- Witness for absent_event_amended: one successful and one failing
analysis on a two-track frame. -/
theorem absent_event_amended_witness :
    ((RingFrame.frameStep 1280 720 [(1, ⟨0, 0, 10, 10⟩), (2, ⟨20, 20, 30, 30⟩)]
          [Except.ok "happy", Except.error "boom"]).1.count
        RingFrame.FrameEvent.noFace =
      if [Except.ok "happy", Except.error "boom"].any
          (fun o : Except String String => o.isOk) then 0 else 1) ∧
      ([(1, (⟨0, 0, 10, 10⟩ : Box)), (2, ⟨20, 20, 30, 30⟩)] = [] →
        (RingFrame.frameStep 1280 720
            [((1 : ℕ), (⟨0, 0, 10, 10⟩ : Box)), (2, ⟨20, 20, 30, 30⟩)]
            [Except.ok "happy", Except.error "boom"]).1 =
          [RingFrame.FrameEvent.noFace]) :=
  absent_event_amended 1280 720 [(1, ⟨0, 0, 10, 10⟩), (2, ⟨20, 20, 30, 30⟩)]
    [Except.ok "happy", Except.error "boom"] (by simp)

namespace VisionCache

theorem findOldest_isSome (l : List CEntry) (h : l ≠ []) :
    ∃ m, findOldest l = some m := by
  cases l with
  | nil => exact absurd rfl h
  | cons e rest =>
    simp only [findOldest]
    cases findOldest rest with
    | none => exact ⟨e, rfl⟩
    | some m2 =>
      by_cases hle : e.ts ≤ m2.ts
      · refine ⟨e, ?_⟩
        show (if e.ts ≤ m2.ts then some e else some m2) = some e
        rw [if_pos hle]
      · refine ⟨m2, ?_⟩
        show (if e.ts ≤ m2.ts then some e else some m2) = some m2
        rw [if_neg hle]

theorem findOldest_mem (l : List CEntry) (m : CEntry) (h : findOldest l = some m) :
    m ∈ l := by
  induction l generalizing m with
  | nil => simp [findOldest] at h
  | cons e rest ih =>
    simp only [findOldest] at h
    cases hr : findOldest rest with
    | none =>
      rw [hr] at h
      have h2 : some e = some m := h
      simp at h2
      simp [h2]
    | some m2 =>
      rw [hr] at h
      have h2 : (if e.ts ≤ m2.ts then some e else some m2) = some m := h
      by_cases hle : e.ts ≤ m2.ts
      · rw [if_pos hle] at h2
        simp at h2
        simp [h2]
      · rw [if_neg hle] at h2
        simp at h2
        subst h2
        exact List.mem_cons_of_mem _ (ih _ hr)

theorem findOldest_min (l : List CEntry) (m : CEntry) (h : findOldest l = some m) :
    ∀ x ∈ l, m.ts ≤ x.ts := by
  induction l generalizing m with
  | nil => simp [findOldest] at h
  | cons e rest ih =>
    simp only [findOldest] at h
    cases hr : findOldest rest with
    | none =>
      have hrest : rest = [] := by
        by_contra hne
        obtain ⟨m2, hm2⟩ := findOldest_isSome rest hne
        rw [hm2] at hr
        exact Option.noConfusion hr
      subst hrest
      rw [hr] at h
      have h2 : some e = some m := h
      simp at h2
      subst h2
      intro x hx
      simp at hx
      exact le_of_eq (by rw [hx])
    | some m2 =>
      rw [hr] at h
      have h2 : (if e.ts ≤ m2.ts then some e else some m2) = some m := h
      intro x hx
      rcases List.mem_cons.mp hx with h1 | h1
      · rw [h1]
        by_cases hle : e.ts ≤ m2.ts
        · rw [if_pos hle] at h2
          simp at h2
          exact le_of_eq (by rw [h2])
        · rw [if_neg hle] at h2
          simp at h2
          subst h2
          exact le_of_lt (lt_of_not_le hle)
      · by_cases hle : e.ts ≤ m2.ts
        · rw [if_pos hle] at h2
          simp at h2
          subst h2
          exact le_trans hle (ih _ hr _ h1)
        · rw [if_neg hle] at h2
          simp at h2
          subst h2
          exact ih _ hr _ h1

theorem removeOldest_length (l : List CEntry) (h : l ≠ []) :
    (removeOldest l).length = l.length - 1 := by
  obtain ⟨m, hm⟩ := findOldest_isSome l h
  unfold removeOldest
  rw [hm]
  exact List.length_erase_of_mem (findOldest_mem l m hm)

theorem evictGT_length (maxN : ℕ) :
    ∀ (fuel : ℕ) (l : List CEntry), l.length ≤ fuel →
      (evictGT maxN fuel l).length ≤ maxN := by
  intro fuel
  induction fuel with
  | zero =>
    intro l hl
    simp only [evictGT]
    omega
  | succ n ih =>
    intro l hl
    simp only [evictGT]
    by_cases h : l.length > maxN
    · rw [if_pos h]
      apply ih
      have hne : l ≠ [] := by
        intro he; subst he; simp at h
      rw [removeOldest_length l hne]
      omega
    · rw [if_neg h]
      omega

theorem evictGE_length (maxN : ℕ) (hmax : 1 ≤ maxN) :
    ∀ (fuel : ℕ) (l : List CEntry), l.length ≤ fuel →
      (evictGE maxN fuel l).length < maxN := by
  intro fuel
  induction fuel with
  | zero =>
    intro l hl
    have : l = [] := List.length_eq_zero.mp (Nat.le_zero.mp hl)
    subst this
    simpa [evictGE] using hmax
  | succ n ih =>
    intro l hl
    simp only [evictGE]
    by_cases h : l.length ≥ maxN ∧ l ≠ []
    · rw [if_pos h]
      exact ih (removeOldest l) (by rw [removeOldest_length l h.2]; omega)
    · rw [if_neg h]
      rcases Decidable.not_and_iff_or_not.mp h with h1 | h1
      · omega
      · have : l = [] := not_not.mp h1
        subst this
        simpa using hmax

end VisionCache

/-- C6: after any insertion the cache holds at most max_onscreen entries
(for any positive capacity), after any read it holds at most max_onscreen
entries, capacity eviction always removes an entry with the oldest creation
timestamp, and inserting a 7th annotation into a cache of six live entries
with max_onscreen six leaves exactly six entries, the evicted one being the
oldest. -/
theorem cache_capacity_invariant :
    (∀ (cfg : VisionCache.CacheConfig) (now : ℚ) (l : List VisionCache.CEntry)
        (b : Box) (txt : String), 1 ≤ cfg.maxOnscreen →
      (VisionCache.insertEntry cfg now l b txt).length ≤ cfg.maxOnscreen) ∧
    (∀ (cfg : VisionCache.CacheConfig) (now : ℚ) (l : List VisionCache.CEntry),
      (VisionCache.getCurrentBoxes cfg now l).length ≤ cfg.maxOnscreen) ∧
    (∀ l : List VisionCache.CEntry, l ≠ [] →
      ∃ m ∈ l, (∀ x ∈ l, m.ts ≤ x.ts) ∧
        VisionCache.removeOldest l = l.erase m) ∧
    (VisionCache.insertEntry ⟨100, 6⟩ 10
        [⟨⟨0, 0, 1, 1⟩, "a", 0⟩, ⟨⟨0, 0, 1, 1⟩, "b", 1⟩, ⟨⟨0, 0, 1, 1⟩, "c", 2⟩,
          ⟨⟨0, 0, 1, 1⟩, "d", 3⟩, ⟨⟨0, 0, 1, 1⟩, "e", 4⟩, ⟨⟨0, 0, 1, 1⟩, "f", 5⟩]
        ⟨0, 0, 2, 2⟩ "g" =
      [⟨⟨0, 0, 1, 1⟩, "b", 1⟩, ⟨⟨0, 0, 1, 1⟩, "c", 2⟩, ⟨⟨0, 0, 1, 1⟩, "d", 3⟩,
        ⟨⟨0, 0, 1, 1⟩, "e", 4⟩, ⟨⟨0, 0, 1, 1⟩, "f", 5⟩,
        ⟨⟨0, 0, 2, 2⟩, "g", 10⟩]) := by
  refine ⟨?_, ?_, ?_, ?_⟩
  · intro cfg now l b txt hmax
    unfold VisionCache.insertEntry
    rw [List.length_append]
    have := VisionCache.evictGE_length cfg.maxOnscreen hmax
      (VisionCache.filterLive now cfg.boxDuration l).length
      (VisionCache.filterLive now cfg.boxDuration l) le_rfl
    simp only [List.length_singleton]
    omega
  · intro cfg now l
    exact VisionCache.evictGT_length cfg.maxOnscreen _ _ le_rfl
  · intro l hl
    obtain ⟨m, hm⟩ := VisionCache.findOldest_isSome l hl
    exact ⟨m, VisionCache.findOldest_mem l m hm, VisionCache.findOldest_min l m hm,
      by unfold VisionCache.removeOldest; rw [hm]⟩
  · norm_num [VisionCache.insertEntry, VisionCache.filterLive,
      VisionCache.evictGE, VisionCache.removeOldest, VisionCache.findOldest,
      List.filter, List.erase]
    split
    · simp_all
    · rfl

/-- Witness for cache_capacity_invariant: the bound instantiated at the
concrete seventh insertion. -/
theorem cache_capacity_invariant_witness :
    (VisionCache.insertEntry ⟨100, 6⟩ 10
        [⟨⟨0, 0, 1, 1⟩, "a", 0⟩, ⟨⟨0, 0, 1, 1⟩, "b", 1⟩, ⟨⟨0, 0, 1, 1⟩, "c", 2⟩,
          ⟨⟨0, 0, 1, 1⟩, "d", 3⟩, ⟨⟨0, 0, 1, 1⟩, "e", 4⟩, ⟨⟨0, 0, 1, 1⟩, "f", 5⟩]
        ⟨0, 0, 2, 2⟩ "g").length ≤ 6 :=
  cache_capacity_invariant.1 ⟨100, 6⟩ 10
    [⟨⟨0, 0, 1, 1⟩, "a", 0⟩, ⟨⟨0, 0, 1, 1⟩, "b", 1⟩, ⟨⟨0, 0, 1, 1⟩, "c", 2⟩,
      ⟨⟨0, 0, 1, 1⟩, "d", 3⟩, ⟨⟨0, 0, 1, 1⟩, "e", 4⟩, ⟨⟨0, 0, 1, 1⟩, "f", 5⟩]
    ⟨0, 0, 2, 2⟩ "g" (by norm_num)

theorem find?_map_replace {α : Type} (k : ℕ) (v : α) :
    ∀ l : List (ℕ × α),
      ((l.map (fun p => if p.1 = k then (p.1, v) else p)).find?
          (fun p => p.1 = k)) =
        (l.find? (fun p => p.1 = k)).map (fun p => (p.1, v)) := by
  intro l
  induction l with
  | nil => rfl
  | cons p rest ih =>
    by_cases h : p.1 = k
    · simp [List.find?_cons, h, ih]
    · simp [List.find?_cons, h, ih]

theorem find?_append_last {α : Type} (k : ℕ) (v : α) :
    ∀ l : List (ℕ × α), (∀ p ∈ l, ¬(p.1 = k)) →
      ((l ++ [(k, v)]).find? (fun p => p.1 = k)) = some (k, v) := by
  intro l
  induction l with
  | nil => simp
  | cons p rest ih =>
    intro h
    have hp : ¬(p.1 = k) := h p (List.mem_cons_self _ _)
    have hd : (decide (p.1 = k)) = false := decide_eq_false hp
    simp only [List.cons_append, List.find?_cons, hd]
    exact ih (fun q hq => h q (List.mem_cons_of_mem _ hq))

theorem alookup_aset_self {α : Type} (l : List (ℕ × α)) (k : ℕ) (v : α) :
    alookup (aset l k v) k = some v := by
  unfold aset alookup
  by_cases h : l.any (fun p => p.1 = k)
  · rw [if_pos h, find?_map_replace]
    obtain ⟨p, hp, hk⟩ := List.any_eq_true.mp h
    rw [decide_eq_true_eq] at hk
    have hfind : ∃ q, l.find? (fun p => p.1 = k) = some q := by
      have : (l.find? (fun p => decide (p.1 = k))).isSome = true :=
        List.find?_isSome.mpr ⟨p, hp, by simp [hk]⟩
      cases hq : l.find? (fun p => p.1 = k) with
      | none => rw [hq] at this; simp at this
      | some q => exact ⟨q, rfl⟩
    obtain ⟨q, hq⟩ := hfind
    have hqk : q.1 = k := by
      have := List.find?_some hq
      simpa using this
    rw [hq]
    simp [hqk]
  · rw [if_neg h]
    have hall : ∀ p ∈ l, ¬(p.1 = k) := by
      intro p hp hk
      exact h (List.any_eq_true.mpr ⟨p, hp, by simpa using hk⟩)
    rw [find?_append_last k v l hall]
    rfl

namespace StabilityGate

theorem registerFirst_lastSentTime (st : GateState) (tid : ℕ) (now : ℚ) :
    (registerFirst st tid now).lastSentTime = st.lastSentTime := by
  unfold registerFirst
  split <;> rfl

theorem registerFirst_lastSentState (st : GateState) (tid : ℕ) (now : ℚ) :
    (registerFirst st tid now).lastSentState = st.lastSentState := by
  unfold registerFirst
  split <;> rfl

theorem stableB_registerFirst (cfg : GateConfig) (now : ℚ) (st : GateState)
    (row : SideTracker.RRow) :
    (stableB cfg now (registerFirst st row.trackId now) row = true) ↔
      Stable cfg now st row := by
  unfold stableB Stable registerFirst
  by_cases hfd : (alookup st.firstDetectionTime row.trackId).isNone
  · rw [if_pos hfd]
    have hnone : alookup st.firstDetectionTime row.trackId = none :=
      Option.isNone_iff_eq_none.mp hfd
    have hset : alookup (aset st.firstDetectionTime row.trackId now)
        row.trackId = some now := alookup_aset_self _ _ _
    simp [hnone, hset]
  · rw [if_neg hfd]
    simp

theorem emitB_iff (cfg : GateConfig) (now : ℚ) (st : GateState) (tid : ℕ)
    (cur : SentState) :
    (emitB cfg now st tid cur = true) ↔
      (IsFirst st tid ∨
        (CooldownPassed cfg now st tid ∧
          (cfg.sendOnlyChanges = false ∨ StateChanged st tid cur))) := by
  unfold emitB isFirstB cooldownB changedB IsFirst CooldownPassed StateChanged
  cases hls : alookup st.lastSentTime tid with
  | none => simp [hls]
  | some t =>
    cases hlss : alookup st.lastSentState tid with
    | none =>
      cases hsoc : cfg.sendOnlyChanges <;> simp [hls, hlss, hsoc]
    | some last =>
      cases hsoc : cfg.sendOnlyChanges
      all_goals simp [hls, hlss, hsoc]
      all_goals tauto

theorem processObj_updates (cfg : GateConfig) (fw fh now : ℚ) (st : GateState)
    (row : SideTracker.RRow)
    (h : (processObj cfg fw fh now st row).2 = true) :
    alookup (processObj cfg fw fh now st row).1.lastSentTime row.trackId =
        some now ∧
      alookup (processObj cfg fw fh now st row).1.lastSentState row.trackId =
        some (currentState fw fh row) := by
  unfold processObj at h ⊢
  by_cases hsup : (cfg.sendOnlyStable
      && !stableB cfg now (registerFirst st row.trackId now) row) = true
  · rw [if_pos hsup] at h
    simp at h
  · rw [if_neg hsup] at h ⊢
    by_cases hemit : emitB cfg now (registerFirst st row.trackId now)
        row.trackId (currentState fw fh row) = true
    · rw [if_pos hemit]
      exact ⟨alookup_aset_self _ _ _, alookup_aset_self _ _ _⟩
    · rw [if_neg hemit] at h
      simp at h

theorem processObj_no_emit_cooldown (cfg : GateConfig) (fw fh now : ℚ)
    (st : GateState) (row : SideTracker.RRow) (t : ℚ)
    (hls : alookup st.lastSentTime row.trackId = some t)
    (hlt : ¬(now - t ≥ cfg.resendCooldown)) :
    (processObj cfg fw fh now st row).2 = false := by
  unfold processObj
  by_cases hsup : (cfg.sendOnlyStable
      && !stableB cfg now (registerFirst st row.trackId now) row) = true
  · rw [if_pos hsup]
  · rw [if_neg hsup]
    have hls1 : alookup (registerFirst st row.trackId now).lastSentTime
        row.trackId = some t := by
      rw [registerFirst_lastSentTime]
      exact hls
    have hemit : emitB cfg now (registerFirst st row.trackId now) row.trackId
        (currentState fw fh row) = false := by
      unfold emitB isFirstB cooldownB
      simp [hls1, hlt]
    rw [if_neg (by rw [hemit]; simp : ¬(emitB cfg now
      (registerFirst st row.trackId now) row.trackId
      (currentState fw fh row) = true))]

end StabilityGate

/-- C2: for every tracked object that passes the stability filter, a report
event is emitted this frame iff is_first OR (cooldown_passed AND (NOT
send_only_changes OR state_changed)); on emit the last-sent time and snapshot
are updated to the current frame; and with resend_cooldown = 5 two gate
evaluations for the same track at t = 0 and t = 3 emit at most one event. -/
theorem gate_emit_rule :
    (∀ (cfg : StabilityGate.GateConfig) (fw fh now : ℚ)
        (st : StabilityGate.GateState) (row : SideTracker.RRow),
      (cfg.sendOnlyStable = true → StabilityGate.Stable cfg now st row) →
      (((StabilityGate.processObj cfg fw fh now st row).2 = true) ↔
        (StabilityGate.IsFirst st row.trackId ∨
          (StabilityGate.CooldownPassed cfg now st row.trackId ∧
            (cfg.sendOnlyChanges = false ∨
              StabilityGate.StateChanged st row.trackId
                (StabilityGate.currentState fw fh row))))) ∧
      (((StabilityGate.processObj cfg fw fh now st row).2 = true) →
        alookup (StabilityGate.processObj cfg fw fh now st row).1.lastSentTime
            row.trackId = some now ∧
          alookup (StabilityGate.processObj cfg fw fh now st row).1.lastSentState
            row.trackId = some (StabilityGate.currentState fw fh row))) ∧
    (∀ (cfg : StabilityGate.GateConfig) (fw fh : ℚ)
        (st : StabilityGate.GateState) (row : SideTracker.RRow),
      cfg.resendCooldown = 5 →
      ¬((StabilityGate.processObj cfg fw fh 0 st row).2 = true ∧
        (StabilityGate.processObj cfg fw fh 3
            (StabilityGate.processObj cfg fw fh 0 st row).1 row).2 = true)) := by
  constructor
  · intro cfg fw fh now st row hstab
    constructor
    · unfold StabilityGate.processObj
      by_cases hsup : (cfg.sendOnlyStable
          && !StabilityGate.stableB cfg now
            (StabilityGate.registerFirst st row.trackId now) row) = true
      · exfalso
        rcases (Bool.and_eq_true _ _).mp hsup with ⟨hso, hnst⟩
        have hstable := hstab hso
        have hsb := (StabilityGate.stableB_registerFirst cfg now st row).mpr hstable
        rw [hsb] at hnst
        simp at hnst
      · rw [if_neg hsup]
        have hiff := StabilityGate.emitB_iff cfg now
          (StabilityGate.registerFirst st row.trackId now) row.trackId
          (StabilityGate.currentState fw fh row)
        have hIsFirst : StabilityGate.IsFirst
            (StabilityGate.registerFirst st row.trackId now) row.trackId ↔
              StabilityGate.IsFirst st row.trackId := by
          unfold StabilityGate.IsFirst
          rw [StabilityGate.registerFirst_lastSentTime]
        have hCool : StabilityGate.CooldownPassed cfg now
            (StabilityGate.registerFirst st row.trackId now) row.trackId ↔
              StabilityGate.CooldownPassed cfg now st row.trackId := by
          unfold StabilityGate.CooldownPassed
          rw [StabilityGate.registerFirst_lastSentTime]
        have hChg : StabilityGate.StateChanged
            (StabilityGate.registerFirst st row.trackId now) row.trackId
              (StabilityGate.currentState fw fh row) ↔
            StabilityGate.StateChanged st row.trackId
              (StabilityGate.currentState fw fh row) := by
          unfold StabilityGate.StateChanged
          rw [StabilityGate.registerFirst_lastSentState]
        rw [hIsFirst, hCool, hChg] at hiff
        by_cases hemit : StabilityGate.emitB cfg now
            (StabilityGate.registerFirst st row.trackId now) row.trackId
            (StabilityGate.currentState fw fh row) = true
        · rw [if_pos hemit]
          simpa using hiff.mp hemit
        · rw [if_neg hemit]
          simp only [Bool.false_eq_true, false_iff]
          intro hc
          exact hemit (hiff.mpr hc)
    · exact StabilityGate.processObj_updates cfg fw fh now st row
  · rintro cfg fw fh st row hcd ⟨h1, h2⟩
    obtain ⟨hupd, _⟩ := StabilityGate.processObj_updates cfg fw fh 0 st row h1
    have hno := StabilityGate.processObj_no_emit_cooldown cfg fw fh 3
      (StabilityGate.processObj cfg fw fh 0 st row).1 row 0 hupd
      (by rw [hcd]; norm_num)
    rw [h2] at hno
    exact Bool.noConfusion hno

/-- Witness for gate_emit_rule: a first-ever detection emits. -/
theorem gate_emit_rule_witness :
    (StabilityGate.processObj ⟨1/2, 7/20, 5, false, true⟩ 1280 720 1
        ⟨[], [], []⟩ ⟨⟨0, 0, 10, 10⟩, 1, 0, 1⟩).2 = true :=
  ((gate_emit_rule.1 ⟨1/2, 7/20, 5, false, true⟩ 1280 720 1 ⟨[], [], []⟩
      ⟨⟨0, 0, 10, 10⟩, 1, 0, 1⟩
      (fun h => (Bool.false_ne_true h).elim)).1).mpr
    (Or.inl (by simp [StabilityGate.IsFirst, alookup]))

namespace RingTracker

theorem greedyAccept_fresh :
    ∀ (ps : List (ℚ × ℕ × ℕ)) (usedT usedD : List ℕ),
      (∀ q ∈ greedyAccept ps usedT usedD, q.1 ∉ usedT ∧ q.2 ∉ usedD) ∧
        ((greedyAccept ps usedT usedD).map Prod.fst).Nodup ∧
        ((greedyAccept ps usedT usedD).map Prod.snd).Nodup := by
  intro ps
  induction ps with
  | nil => intro usedT usedD; simp [greedyAccept]
  | cons hd rest ih =>
    intro usedT usedD
    obtain ⟨v, i, tid⟩ := hd
    by_cases hused : tid ∈ usedT ∨ i ∈ usedD
    · simpa [greedyAccept, hused] using ih usedT usedD
    · have hnT : tid ∉ usedT := (not_or.mp hused).1
      have hnD : i ∉ usedD := (not_or.mp hused).2
      obtain ⟨ihq, ihf, ihs⟩ := ih (tid :: usedT) (i :: usedD)
      have hres : greedyAccept ((v, i, tid) :: rest) usedT usedD =
          (tid, i) :: greedyAccept rest (tid :: usedT) (i :: usedD) := by
        show (if tid ∈ usedT ∨ i ∈ usedD then greedyAccept rest usedT usedD
          else (tid, i) :: greedyAccept rest (tid :: usedT) (i :: usedD)) = _
        rw [if_neg hused]
      rw [hres]
      refine ⟨?_, ?_, ?_⟩
      · intro q hq
        rcases List.mem_cons.mp hq with h1 | h1
        · rw [h1]; exact ⟨hnT, hnD⟩
        · obtain ⟨hT, hD⟩ := ihq q h1
          exact ⟨fun hm => hT (List.mem_cons_of_mem _ hm),
            fun hm => hD (List.mem_cons_of_mem _ hm)⟩
      · rw [List.map_cons]
        refine List.nodup_cons.mpr ⟨?_, ihf⟩
        intro hm
        obtain ⟨q, hq, hq1⟩ := List.mem_map.mp hm
        exact (ihq q hq).1 (hq1 ▸ List.mem_cons_self _ _)
      · rw [List.map_cons]
        refine List.nodup_cons.mpr ⟨?_, ihs⟩
        intro hm
        obtain ⟨q, hq, hq2⟩ := List.mem_map.mp hm
        exact (ihq q hq).2 (hq2 ▸ List.mem_cons_self _ _)

theorem greedyAccept_mem_src :
    ∀ (ps : List (ℚ × ℕ × ℕ)) (usedT usedD : List ℕ) (q : ℕ × ℕ),
      q ∈ greedyAccept ps usedT usedD → ∃ v, (v, q.2, q.1) ∈ ps := by
  intro ps
  induction ps with
  | nil => intro usedT usedD q hq; simp [greedyAccept] at hq
  | cons hd rest ih =>
    intro usedT usedD q hq
    obtain ⟨v, i, tid⟩ := hd
    by_cases hused : tid ∈ usedT ∨ i ∈ usedD
    · unfold greedyAccept at hq
      rw [if_pos hused] at hq
      obtain ⟨w, hw⟩ := ih _ _ q hq
      exact ⟨w, List.mem_cons_of_mem _ hw⟩
    · unfold greedyAccept at hq
      rw [if_neg hused] at hq
      rcases List.mem_cons.mp hq with h1 | h1
      · exact ⟨v, by rw [h1]; exact List.mem_cons_self _ _⟩
      · obtain ⟨w, hw⟩ := ih _ _ q h1
        exact ⟨w, List.mem_cons_of_mem _ hw⟩

theorem candidatePairs_mem (thr : ℚ) (tracks : List (ℕ × RTrack))
    (ds : List Box) (v : ℚ) (i tid : ℕ)
    (h : (v, i, tid) ∈ candidatePairs thr tracks ds) :
    ∃ tb ∈ tracks, tb.1 = tid ∧ v = iou tb.2.bbox (ds.getD i default) ∧
      v ≥ thr ∧ i < ds.length := by
  unfold candidatePairs at h
  rw [List.mem_flatMap] at h
  obtain ⟨i0, hi0, hmem⟩ := h
  rw [List.mem_filterMap] at hmem
  obtain ⟨tb, htb, heq⟩ := hmem
  by_cases hge : iou tb.2.bbox (ds.getD i0 default) ≥ thr
  · rw [if_pos hge] at heq
    have h1 : (iou tb.2.bbox (ds.getD i0 default), i0, tb.1) = (v, i, tid) := by
      injection heq
    rw [Prod.mk.injEq, Prod.mk.injEq] at h1
    obtain ⟨hv, hi, ht⟩ := h1
    subst hv
    subst hi
    subst ht
    exact ⟨tb, htb, rfl, rfl, hge, List.mem_range.mp hi0⟩
  · rw [if_neg hge] at heq
    exact Option.noConfusion heq

end RingTracker

/-- C1 counterexample: with one live track of bbox (0,0,10,10) and two
detections (0,0,10,5) and (0,0,10,9) at threshold 3/10, the SideScreen
tracker (per-detection greedy, detections in input order) matches detection 0
to the track, while the canonical sort-all-candidates-by-IoU-descending
policy matches detection 1 to it: the matched (track id, detection index)
sets differ. -/
theorem ringCanonicalPolicy_unfold (thr : ℚ) (tracks : List (ℕ × RingTracker.RTrack))
    (ds : List Box) :
    RingTracker.canonicalPolicy thr tracks ds =
      RingTracker.greedyAccept
        ((RingTracker.candidatePairs thr tracks ds).insertionSort
          (fun a b => b.1 ≤ a.1)) [] [] := rfl

theorem canonical_policy_counterexample :
    ((SideTracker.matchedPairs ⟨3/10, 30, 2, [(1, ⟨⟨0, 0, 10, 10⟩, 0, 0, 1⟩)], []⟩
        [⟨0, 0, 10, 5⟩, ⟨0, 0, 10, 9⟩]).map
          (fun p =>
            (((⟨3/10, 30, 2, [(1, ⟨⟨0, 0, 10, 10⟩, 0, 0, 1⟩)], []⟩ :
              SideTracker.TState).tracks.getD p.2 default).1, p.1))) =
        [(1, 0)] ∧
      RingTracker.canonicalPolicy (3/10) [(1, ⟨⟨0, 0, 10, 10⟩, 0⟩)]
          [⟨0, 0, 10, 5⟩, ⟨0, 0, 10, 9⟩] = [(1, 1)] ∧
      ¬([((1 : ℕ), (0 : ℕ))] = [((1 : ℕ), (1 : ℕ))]) := by
  have hr1 : List.range 1 = [0] := by decide
  have hr2 : List.range 2 = [0, 1] := by decide
  have hbest0 : SideTracker.bestTrack (SideTracker.iouMat
      ⟨3/10, 30, 2, [(1, ⟨⟨0, 0, 10, 10⟩, 0, 0, 1⟩)], []⟩
      [⟨0, 0, 10, 5⟩, ⟨0, 0, 10, 9⟩]) 0 (3/10) [] 1 = some 0 := by
    unfold SideTracker.bestTrack
    rw [hr1]
    rw [List.foldl_cons, List.foldl_nil]
    norm_num [SideTracker.iouMat, SideTracker.calculateIou]
  have hbest1 : SideTracker.bestTrack (SideTracker.iouMat
      ⟨3/10, 30, 2, [(1, ⟨⟨0, 0, 10, 10⟩, 0, 0, 1⟩)], []⟩
      [⟨0, 0, 10, 5⟩, ⟨0, 0, 10, 9⟩]) 1 (3/10) [0] 1 = none := by
    unfold SideTracker.bestTrack
    rw [hr1]
    rw [List.foldl_cons, List.foldl_nil]
    norm_num
  have hlen : ([⟨0, 0, 10, 5⟩, ⟨0, 0, 10, 9⟩] : List Box).length = 2 := rfl
  have hM : SideTracker.matchedPairs
      ⟨3/10, 30, 2, [(1, ⟨⟨0, 0, 10, 10⟩, 0, 0, 1⟩)], []⟩
      [⟨0, 0, 10, 5⟩, ⟨0, 0, 10, 9⟩] = [(0, 0)] := by
    unfold SideTracker.matchedPairs SideTracker.greedyMatch
    rw [if_neg (by simp)]
    simp only [hlen, hr2, List.foldl_cons, List.foldl_nil, List.map_nil,
      List.map_cons, List.nil_append, List.length_cons, List.length_nil,
      List.length_singleton, hbest0, hbest1]
  have hri0 : RingTracker.iou ⟨0, 0, 10, 10⟩ ⟨0, 0, 10, 5⟩ = 1/2 := by
    norm_num [RingTracker.iou]
  have hri1 : RingTracker.iou ⟨0, 0, 10, 10⟩ ⟨0, 0, 10, 9⟩ = 9/10 := by
    norm_num [RingTracker.iou]
  have hcand : RingTracker.candidatePairs (3/10) [(1, ⟨⟨0, 0, 10, 10⟩, 0⟩)]
      [⟨0, 0, 10, 5⟩, ⟨0, 0, 10, 9⟩] = [(1/2, 0, 1), (9/10, 1, 1)] := by
    unfold RingTracker.candidatePairs
    rw [hlen, hr2]
    simp only [List.flatMap_cons, List.flatMap_nil, List.filterMap_cons,
      List.filterMap_nil]
    rw [show (([⟨0, 0, 10, 5⟩, ⟨0, 0, 10, 9⟩] : List Box).getD 0 default) =
      ⟨0, 0, 10, 5⟩ from rfl]
    rw [show (([⟨0, 0, 10, 5⟩, ⟨0, 0, 10, 9⟩] : List Box).getD 1 default) =
      ⟨0, 0, 10, 9⟩ from rfl]
    rw [hri0, hri1]
    norm_num
  have hsorted : ([((1 : ℚ)/2, (0 : ℕ), (1 : ℕ)),
      ((9 : ℚ)/10, (1 : ℕ), (1 : ℕ))].insertionSort
        (fun a b => b.1 ≤ a.1)) = [(9/10, 1, 1), (1/2, 0, 1)] := by
    norm_num [List.insertionSort, List.orderedInsert]
  have hgr : RingTracker.greedyAccept
      [((9 : ℚ)/10, (1 : ℕ), (1 : ℕ)), ((1 : ℚ)/2, (0 : ℕ), (1 : ℕ))] [] [] =
      [(1, 1)] := by
    show (if (1 : ℕ) ∈ ([] : List ℕ) ∨ (1 : ℕ) ∈ ([] : List ℕ) then _ else _) = _
    rw [if_neg (by simp)]
    show ((1 : ℕ), (1 : ℕ)) :: (if (1 : ℕ) ∈ [(1 : ℕ)] ∨ (0 : ℕ) ∈ [(1 : ℕ)]
      then _ else _) = _
    rw [if_pos (by simp)]
    rfl
  refine ⟨?_, ?_, by simp⟩
  · rw [hM]
    rfl
  · rw [ringCanonicalPolicy_unfold, hcand, hsorted, hgr]

/-- C1 amended: for every update call with at least one live track, the
RingScreen tracker's matched pairs are exactly the canonical policy (collect
qualifying pairs, sort by IoU descending, greedily accept unclaimed pairs)
and form a one-to-one assignment in which every matched pair qualifies
against the threshold; the SideScreen tracker instead matches each detection
in input order to its best still-unclaimed track at IoU strictly above the
threshold, which can yield a different matched set. -/
theorem canonical_policy_amended :
    ∀ (s : RingTracker.RState) (ds : List Box), s.tracks ≠ [] →
      RingTracker.matchPairs s ds =
          RingTracker.canonicalPolicy s.iouThreshold s.tracks ds ∧
        ((RingTracker.matchPairs s ds).map Prod.fst).Nodup ∧
        ((RingTracker.matchPairs s ds).map Prod.snd).Nodup ∧
        ∀ q ∈ RingTracker.matchPairs s ds, ∃ tb ∈ s.tracks, tb.1 = q.1 ∧
          RingTracker.iou tb.2.bbox (ds.getD q.2 default) ≥ s.iouThreshold := by
  intro s ds hne
  refine ⟨rfl, (RingTracker.greedyAccept_fresh _ [] []).2.1,
    (RingTracker.greedyAccept_fresh _ [] []).2.2, ?_⟩
  intro q hq
  obtain ⟨v, hv⟩ := RingTracker.greedyAccept_mem_src _ [] [] q hq
  have hv2 : (v, q.2, q.1) ∈
      RingTracker.candidatePairs s.iouThreshold s.tracks ds :=
    (List.perm_insertionSort (fun a b => b.1 ≤ a.1)
      (RingTracker.candidatePairs s.iouThreshold s.tracks ds)).mem_iff.mp hv
  obtain ⟨tb, htb, ht1, hveq, hge, _⟩ :=
    RingTracker.candidatePairs_mem _ _ _ _ _ _ hv2
  refine ⟨tb, htb, ht1, ?_⟩
  rw [← hveq]
  exact hge

/-- Witness for canonical_policy_amended on a one-track, one-detection
state. -/
theorem canonical_policy_amended_witness :
    RingTracker.matchPairs ⟨3/10, 20, 2, [(1, ⟨⟨0, 0, 10, 10⟩, 0⟩)]⟩
          [⟨0, 0, 10, 5⟩] =
        RingTracker.canonicalPolicy
          (RingTracker.RState.mk (3/10) 20 2
            [(1, ⟨⟨0, 0, 10, 10⟩, 0⟩)]).iouThreshold
          (RingTracker.RState.mk (3/10) 20 2
            [(1, ⟨⟨0, 0, 10, 10⟩, 0⟩)]).tracks [⟨0, 0, 10, 5⟩] ∧
      ((RingTracker.matchPairs ⟨3/10, 20, 2, [(1, ⟨⟨0, 0, 10, 10⟩, 0⟩)]⟩
          [⟨0, 0, 10, 5⟩]).map Prod.fst).Nodup ∧
      ((RingTracker.matchPairs ⟨3/10, 20, 2, [(1, ⟨⟨0, 0, 10, 10⟩, 0⟩)]⟩
          [⟨0, 0, 10, 5⟩]).map Prod.snd).Nodup ∧
      ∀ q ∈ RingTracker.matchPairs ⟨3/10, 20, 2, [(1, ⟨⟨0, 0, 10, 10⟩, 0⟩)]⟩
          [⟨0, 0, 10, 5⟩],
        ∃ tb ∈ (RingTracker.RState.mk (3/10) 20 2
            [(1, ⟨⟨0, 0, 10, 10⟩, 0⟩)]).tracks, tb.1 = q.1 ∧
          RingTracker.iou tb.2.bbox ([⟨0, 0, 10, 5⟩].getD q.2 default) ≥
            (RingTracker.RState.mk (3/10) 20 2
              [(1, ⟨⟨0, 0, 10, 10⟩, 0⟩)]).iouThreshold :=
  canonical_policy_amended ⟨3/10, 20, 2, [(1, ⟨⟨0, 0, 10, 10⟩, 0⟩)]⟩
    [⟨0, 0, 10, 5⟩] (by simp)

theorem calculateIou_comm (b1 b2 : Box) :
    SideTracker.calculateIou b1 b2 = SideTracker.calculateIou b2 b1 := by
  simp only [SideTracker.calculateIou]
  rw [max_comm b2.x1 b1.x1, max_comm b2.y1 b1.y1, min_comm b2.x2 b1.x2,
    min_comm b2.y2 b1.y2,
    add_comm ((b2.x2 - b2.x1) * (b2.y2 - b2.y1))
      ((b1.x2 - b1.x1) * (b1.y2 - b1.y1))]

theorem side_update_fresh (thr : ℚ) (maxM : ℕ) (now : ℚ) (B : Box) (c : ℤ)
    (f : ℚ) :
    SideTracker.update (SideTracker.initState thr maxM) ⟨now, [B], [c], [f]⟩ =
      (⟨thr, maxM, 2, [(1, ⟨B, 0, c, f⟩)], [(1, [⟨B, now, c, f⟩])]⟩,
        [⟨B, 1, c, f⟩]) := rfl

theorem ring_update_fresh (thr : ℚ) (maxM : ℕ) (B : Box) :
    RingTracker.update (RingTracker.rinit thr maxM) [B] =
      (⟨thr, maxM, 2, [(1, ⟨B, 0⟩)]⟩, [(1, B)]) := rfl

theorem side_update_second (thr : ℚ) (maxM : ℕ) (now2 : ℚ) (B B2 : Box)
    (c c2 : ℤ) (f f2 : ℚ) (H : List (ℕ × List SideTracker.HistEntry))
    (h : SideTracker.calculateIou B2 B > thr) :
    ((SideTracker.update ⟨thr, maxM, 2, [(1, ⟨B, 0, c, f⟩)], H⟩
        ⟨now2, [B2], [c2], [f2]⟩).2.map SideTracker.RRow.trackId) = [1] := by
  have hr1 : List.range 1 = [0] := by decide
  have hbest : SideTracker.bestTrack
      (SideTracker.iouMat ⟨thr, maxM, 2, [(1, ⟨B, 0, c, f⟩)], H⟩ [B2])
      0 thr [] 1 = some 0 := by
    unfold SideTracker.bestTrack
    rw [hr1, List.foldl_cons, List.foldl_nil]
    rw [if_neg (List.not_mem_nil 0)]
    rw [if_pos (show SideTracker.iouMat
      ⟨thr, maxM, 2, [(1, ⟨B, 0, c, f⟩)], H⟩ [B2] 0 0 >
        ((thr, (none : Option ℕ))).1 from h)]
  have hM : SideTracker.matchedPairs
      ⟨thr, maxM, 2, [(1, ⟨B, 0, c, f⟩)], H⟩ [B2] = [(0, 0)] := by
    unfold SideTracker.matchedPairs SideTracker.greedyMatch
    rw [if_neg (by simp)]
    simp only [List.length_singleton]
    rw [hr1, List.foldl_cons]
    simp only [List.map_nil]
    rw [hbest]
    rw [List.foldl_nil]
    rfl
  simp only [SideTracker.update]
  rw [if_neg (by simp)]
  rw [hM]
  rfl

theorem ring_update_second (thr : ℚ) (maxM : ℕ) (B B2 : Box)
    (h : RingTracker.iou B B2 ≥ thr) :
    ((RingTracker.update ⟨thr, maxM, 2, [(1, ⟨B, 0⟩)]⟩ [B2]).2.map
      Prod.fst) = [1] := by
  have hr1 : List.range 1 = [0] := by decide
  have hcand : RingTracker.candidatePairs thr [(1, ⟨B, 0⟩)] [B2] =
      [(RingTracker.iou B B2, 0, 1)] := by
    unfold RingTracker.candidatePairs
    simp only [List.length_singleton]
    rw [hr1]
    simp only [List.flatMap_cons, List.flatMap_nil, List.filterMap_cons,
      List.filterMap_nil]
    rw [if_pos (show RingTracker.iou
      (((1 : ℕ), (⟨B, 0⟩ : RingTracker.RTrack))).2.bbox
        (([B2] : List Box).getD 0 default) ≥ thr from h)]
    rfl
  have hmp : RingTracker.matchPairs ⟨thr, maxM, 2, [(1, ⟨B, 0⟩)]⟩ [B2] =
      [(1, 0)] := by
    unfold RingTracker.matchPairs
    rw [hcand]
    rw [show ([(RingTracker.iou B B2, (0 : ℕ), (1 : ℕ))].insertionSort
      (fun a b => b.1 ≤ a.1)) = [(RingTracker.iou B B2, 0, 1)] from rfl]
    show (if (1 : ℕ) ∈ ([] : List ℕ) ∨ (0 : ℕ) ∈ ([] : List ℕ) then _
      else _) = _
    rw [if_neg (by simp)]
    rfl
  simp only [RingTracker.update]
  rw [if_neg (by simp)]
  rw [hmp]
  rfl

/-- C4 counterexample: at IoU exactly equal to the threshold the SideScreen
tracker does not preserve the track id.  With threshold 3/10, box B =
(0,0,10,10) then box B2 = (0,0,10,3) have IoU exactly 3/10; the first update
returns track id 1 but the second update spawns a fresh track id 2, refuting
continuity at the inclusive boundary. -/
theorem track_continuity_counterexample :
    SideTracker.calculateIou ⟨0, 0, 10, 10⟩ ⟨0, 0, 10, 3⟩ = 3/10 ∧
      ((SideTracker.update (SideTracker.initState (3/10) 30)
          ⟨0, [⟨0, 0, 10, 10⟩], [0], [1]⟩).2.map SideTracker.RRow.trackId) =
        [1] ∧
      ((SideTracker.update (SideTracker.update (SideTracker.initState (3/10) 30)
            ⟨0, [⟨0, 0, 10, 10⟩], [0], [1]⟩).1
          ⟨1, [⟨0, 0, 10, 3⟩], [0], [1]⟩).2.map SideTracker.RRow.trackId) =
        [2] := by
  have hr1 : List.range 1 = [0] := by decide
  refine ⟨by norm_num [SideTracker.calculateIou], ?_, ?_⟩
  · rw [side_update_fresh]
    rfl
  · rw [side_update_fresh]
    have hbest : SideTracker.bestTrack
        (SideTracker.iouMat ⟨3/10, 30, 2,
            [(1, ⟨⟨0, 0, 10, 10⟩, 0, 0, 1⟩)], [(1, [⟨⟨0, 0, 10, 10⟩, 0, 0, 1⟩])]⟩
          [⟨0, 0, 10, 3⟩]) 0 (3/10) [] 1 = none := by
      unfold SideTracker.bestTrack
      rw [hr1, List.foldl_cons, List.foldl_nil]
      rw [if_neg (List.not_mem_nil 0)]
      rw [if_neg (show ¬(SideTracker.iouMat ⟨3/10, 30, 2,
          [(1, ⟨⟨0, 0, 10, 10⟩, 0, 0, 1⟩)],
          [(1, [⟨⟨0, 0, 10, 10⟩, 0, 0, 1⟩])]⟩
          [⟨0, 0, 10, 3⟩] 0 0 > ((3/10 : ℚ), (none : Option ℕ)).1) from by
        norm_num [SideTracker.iouMat, SideTracker.calculateIou])]
    have hM : SideTracker.matchedPairs ⟨3/10, 30, 2,
        [(1, ⟨⟨0, 0, 10, 10⟩, 0, 0, 1⟩)], [(1, [⟨⟨0, 0, 10, 10⟩, 0, 0, 1⟩])]⟩
        [⟨0, 0, 10, 3⟩] = [] := by
      unfold SideTracker.matchedPairs SideTracker.greedyMatch
      rw [if_neg (by simp)]
      simp only [List.length_singleton]
      rw [hr1, List.foldl_cons]
      simp only [List.map_nil]
      rw [hbest]
      rw [List.foldl_nil]
    simp only [SideTracker.update]
    rw [if_neg (by simp)]
    rw [hM]
    rfl

/-- C4 amended: track continuity holds for the SideScreen tracker when
IoU(B, B2) is strictly greater than the threshold (its comparison is strict),
and for the RingScreen tracker when IoU(B, B2) is greater than or equal to
the threshold (inclusive comparison, covering exact equality): in each case
update([B]) from a fresh tracker and then update([B2]) report the same track
id 1, which is also the single live id. -/
theorem track_continuity_amended :
    (∀ (thr : ℚ) (maxM : ℕ) (now1 now2 : ℚ) (B B2 : Box) (c1 c2 : ℤ)
        (f1 f2 : ℚ),
      SideTracker.calculateIou B B2 > thr →
      ((SideTracker.update (SideTracker.initState thr maxM)
          ⟨now1, [B], [c1], [f1]⟩).2.map SideTracker.RRow.trackId) = [1] ∧
        ((SideTracker.update
            (SideTracker.update (SideTracker.initState thr maxM)
              ⟨now1, [B], [c1], [f1]⟩).1
            ⟨now2, [B2], [c2], [f2]⟩).2.map SideTracker.RRow.trackId) = [1]) ∧
    (∀ (thr : ℚ) (maxM : ℕ) (B B2 : Box),
      RingTracker.iou B B2 ≥ thr →
      ((RingTracker.update (RingTracker.rinit thr maxM) [B]).2.map
          Prod.fst) = [1] ∧
        ((RingTracker.update
            (RingTracker.update (RingTracker.rinit thr maxM) [B]).1
            [B2]).2.map Prod.fst) = [1]) := by
  constructor
  · intro thr maxM now1 now2 B B2 c1 c2 f1 f2 h
    constructor
    · rw [side_update_fresh]
      rfl
    · rw [side_update_fresh]
      exact side_update_second thr maxM now2 B B2 c1 c2 f1 f2 _
        (by rw [calculateIou_comm]; exact h)
  · intro thr maxM B B2 h
    constructor
    · rw [ring_update_fresh]
      rfl
    · rw [ring_update_fresh]
      exact ring_update_second thr maxM B B2 h

/-- Witness for track_continuity_amended at IoU 1/2 over threshold 3/10 for
the SideScreen tracker, and IoU exactly 3/10 at threshold 3/10 for the
RingScreen tracker. -/
theorem track_continuity_amended_witness :
    (((SideTracker.update (SideTracker.initState (3/10) 30)
        ⟨0, [⟨0, 0, 10, 10⟩], [0], [1]⟩).2.map SideTracker.RRow.trackId) = [1] ∧
      ((SideTracker.update
          (SideTracker.update (SideTracker.initState (3/10) 30)
            ⟨0, [⟨0, 0, 10, 10⟩], [0], [1]⟩).1
          ⟨1, [⟨0, 0, 10, 5⟩], [0], [1]⟩).2.map SideTracker.RRow.trackId) = [1]) ∧
    (((RingTracker.update (RingTracker.rinit (3/10) 20)
        [⟨0, 0, 10, 10⟩]).2.map Prod.fst) = [1] ∧
      ((RingTracker.update
          (RingTracker.update (RingTracker.rinit (3/10) 20)
            [⟨0, 0, 10, 10⟩]).1 [⟨0, 0, 10, 3⟩]).2.map Prod.fst) = [1]) :=
  ⟨track_continuity_amended.1 (3/10) 30 0 1 ⟨0, 0, 10, 10⟩ ⟨0, 0, 10, 5⟩ 0 0 1 1
      (by norm_num [SideTracker.calculateIou]),
    track_continuity_amended.2 (3/10) 20 ⟨0, 0, 10, 10⟩ ⟨0, 0, 10, 3⟩
      (by norm_num [RingTracker.iou])⟩

namespace SideTracker

theorem ageAll_keys_sublist (maxM : ℕ) (l : List (ℕ × TrackData)) :
    ((ageAll maxM l).map Prod.fst).Sublist (l.map Prod.fst) := by
  induction l with
  | nil => simp [ageAll]
  | cons tb rest ih =>
    unfold ageAll at ih ⊢
    rw [List.filterMap_cons]
    by_cases h : tb.2.missedCount + 1 > maxM
    · rw [if_pos h]
      exact List.Sublist.cons _ ih
    · rw [if_neg h]
      rw [List.map_cons, List.map_cons]
      exact List.Sublist.cons₂ _ ih

theorem ageAndApply_keys_sublist (M : List (ℕ × ℕ)) (maxM : ℕ)
    (f : ℕ → TrackData) :
    ∀ (l : List (ℕ × TrackData)) (j : ℕ),
      ((ageAndApply M maxM f j l).map Prod.fst).Sublist (l.map Prod.fst) := by
  intro l
  induction l with
  | nil => intro j; simp [ageAndApply]
  | cons tb rest ih =>
    intro j
    unfold ageAndApply
    cases hf : M.find? (fun p => p.2 = j) with
    | some p =>
      dsimp only
      rw [List.map_cons, List.map_cons]
      exact List.Sublist.cons₂ _ (ih (j + 1))
    | none =>
      dsimp only
      by_cases h : tb.2.missedCount + 1 > maxM
      · rw [if_pos h]
        exact List.Sublist.cons _ (ih (j + 1))
      · rw [if_neg h]
        rw [List.map_cons, List.map_cons]
        exact List.Sublist.cons₂ _ (ih (j + 1))

theorem news_keys (c : ℕ) {α : Type} (l : List α) :
    (l.enum.map (fun q => c + q.1)) =
      (List.range l.length).map (fun k => c + k) := by
  have h1 : l.enum.map (fun q => c + q.1) =
      (l.enum.map Prod.fst).map (fun k => c + k) := by
    rw [List.map_map]
    rfl
  rw [h1, List.enum_map_fst]

theorem news_keys_pairwise (c n : ℕ) :
    ((List.range n).map (fun k => c + k)).Pairwise (· < ·) :=
  List.Pairwise.map _ (fun h => by omega) (List.pairwise_lt_range n)

theorem news_keys_bounds (c n : ℕ) :
    ∀ k ∈ (List.range n).map (fun x => c + x), c ≤ k ∧ k < c + n := by
  intro k hk
  obtain ⟨x, hx, hxe⟩ := List.mem_map.mp hk
  rw [List.mem_range] at hx
  omega

theorem update_keys_split (s : TState) (inp : UpdIn) :
    ∃ n : ℕ, (update s inp).1.nextId = s.nextId + n ∧
      ∃ oldKeys : List ℕ,
        ((update s inp).1.tracks.map Prod.fst) =
            oldKeys ++ ((List.range n).map (fun k => s.nextId + k)) ∧
          oldKeys.Sublist (keys s) := by
  unfold update
  by_cases hempty : inp.dets.isEmpty = true
  · rw [if_pos hempty]
    refine ⟨0, by simp, (ageAll s.maxMissedFrames s.tracks).map Prod.fst,
      by simp, ageAll_keys_sublist _ _⟩
  · rw [if_neg hempty]
    dsimp only
    refine ⟨((List.range inp.dets.length).filter
      (fun d => d ∉ (matchedPairs s inp.dets).map Prod.fst)).length, rfl,
      (ageAndApply (matchedPairs s inp.dets) s.maxMissedFrames
        (fun d => TrackData.mk (inp.dets.getD d default) 0
          (inp.classIds.getD d 0) (inp.confs.getD d 0)) 0
        s.tracks).map Prod.fst, ?_, ageAndApply_keys_sublist _ _ _ _ _⟩
    rw [List.map_append]
    congr 1
    rw [List.map_map, List.map_map]
    exact news_keys s.nextId _

theorem update_nextId_mono (s : TState) (inp : UpdIn) :
    s.nextId ≤ (update s inp).1.nextId := by
  obtain ⟨n, hn, _⟩ := update_keys_split s inp
  omega

theorem update_fresh (s : TState) (inp : UpdIn) :
    ∀ k ∈ keys (update s inp).1, k ∈ keys s ∨ s.nextId ≤ k := by
  obtain ⟨n, hn, oldKeys, hkeys, hsub⟩ := update_keys_split s inp
  intro k hk
  unfold keys at hk
  rw [hkeys] at hk
  rcases List.mem_append.mp hk with h1 | h1
  · exact Or.inl (hsub.subset h1)
  · exact Or.inr (news_keys_bounds s.nextId n k h1).1

theorem update_inv (s : TState) (inp : UpdIn) (h : Inv s) :
    Inv (update s inp).1 := by
  obtain ⟨hpw, hbd⟩ := h
  obtain ⟨n, hn, oldKeys, hkeys, hsub⟩ := update_keys_split s inp
  constructor
  · show ((update s inp).1.tracks.map Prod.fst).Pairwise (· < ·)
    rw [hkeys]
    rw [List.pairwise_append]
    refine ⟨hpw.sublist hsub, news_keys_pairwise s.nextId n, ?_⟩
    intro a ha b hb
    have h1 : a < s.nextId := hbd a (hsub.subset ha)
    have h2 := (news_keys_bounds s.nextId n b hb).1
    omega
  · intro k hk
    show k < (update s inp).1.nextId
    rw [hn]
    unfold keys at hk
    rw [hkeys] at hk
    rcases List.mem_append.mp hk with h1 | h1
    · have := hbd k (hsub.subset h1)
      omega
    · exact (news_keys_bounds s.nextId n k h1).2

theorem runUpdates_cons (s : TState) (i : UpdIn) (rest : List UpdIn) :
    runUpdates s (i :: rest) = runUpdates (update s i).1 rest := rfl

theorem runUpdates_inv (inputs : List UpdIn) :
    ∀ s : TState, Inv s → Inv (runUpdates s inputs) := by
  induction inputs with
  | nil => intro s h; exact h
  | cons i rest ih =>
    intro s h
    rw [runUpdates_cons]
    exact ih _ (update_inv s i h)

theorem runUpdates_nextId_mono (inputs : List UpdIn) :
    ∀ s : TState, s.nextId ≤ (runUpdates s inputs).nextId := by
  induction inputs with
  | nil => intro s; exact le_rfl
  | cons i rest ih =>
    intro s
    rw [runUpdates_cons]
    exact le_trans (update_nextId_mono s i) (ih _)

theorem runUpdates_fresh (inputs : List UpdIn) :
    ∀ (s : TState) (k : ℕ), k ∈ keys (runUpdates s inputs) →
      k ∈ keys s ∨ s.nextId ≤ k := by
  induction inputs with
  | nil => intro s k hk; exact Or.inl hk
  | cons i rest ih =>
    intro s k hk
    rw [runUpdates_cons] at hk
    rcases ih _ k hk with h1 | h1
    · exact update_fresh s i k h1
    · exact Or.inr (le_trans (update_nextId_mono s i) h1)

theorem initState_inv (thr : ℚ) (maxM : ℕ) : Inv (initState thr maxM) := by
  constructor
  · simp [initState, keys]
  · intro k hk
    simp [initState, keys] at hk

end SideTracker

namespace RingTracker

theorem rupdate_keys_split_aux (tracks : List (ℕ × RTrack))
    (M : List (ℕ × ℕ)) (ds : List Box) :
    (tracks.map (fun tb =>
      match M.find? (fun p => p.1 = tb.1) with
      | some p => (tb.1, RTrack.mk (ds.getD p.2 default) 0)
      | none => (tb.1, RTrack.mk tb.2.bbox (tb.2.missed + 1)))).map Prod.fst =
      tracks.map Prod.fst := by
  induction tracks with
  | nil => rfl
  | cons tb rest ih =>
    rw [List.map_cons, List.map_cons, List.map_cons, ih]
    congr 1
    cases M.find? (fun p => p.1 = tb.1) <;> rfl

theorem rnews_keys0 (c : ℕ) (ds : List Box) :
    ((ds.enum.map (fun q => (c + q.1, q.2))).map
      (fun p => (p.1, RTrack.mk p.2 0))).map Prod.fst =
      (List.range ds.length).map (fun k => c + k) := by
  rw [List.map_map, List.map_map]
  exact SideTracker.news_keys c ds

theorem rnews_keys (c : ℕ) (idx : List ℕ) (ds : List Box) :
    ((idx.enum.map (fun q => (c + q.1, ds.getD q.2 default))).map
      (fun p => (p.1, RTrack.mk p.2 0))).map Prod.fst =
      (List.range idx.length).map (fun k => c + k) := by
  rw [List.map_map, List.map_map]
  exact SideTracker.news_keys c idx

theorem rupdate_keys_split (s : RState) (ds : List Box) :
    ∃ n : ℕ, (update s ds).1.nextId = s.nextId + n ∧
      ((update s ds).1.tracks.map Prod.fst).Sublist
        (rkeys s ++ (List.range n).map (fun k => s.nextId + k)) := by
  unfold update
  by_cases hempty : s.tracks.isEmpty = true
  · rw [if_pos hempty]
    refine ⟨ds.length, rfl, ?_⟩
    have h : ((s.tracks ++ ((ds.enum.map (fun q => (s.nextId + q.1, q.2))).map
        (fun p => (p.1, RTrack.mk p.2 0)))).map Prod.fst).Sublist
        (rkeys s ++ (List.range ds.length).map (fun k => s.nextId + k)) := by
      rw [List.map_append, rnews_keys0]
      exact List.Sublist.refl _
    exact h
  · rw [if_neg hempty]
    refine ⟨((List.range ds.length).filter
      (fun i => i ∉ (matchPairs s ds).map Prod.snd)).length, rfl, ?_⟩
    have h : ((((s.tracks.map (fun (tb : ℕ × RTrack) =>
        match (matchPairs s ds).find? (fun (p : ℕ × ℕ) => p.1 = tb.1) with
        | some p => (tb.1, RTrack.mk (ds.getD p.2 default) 0)
        | none => (tb.1, RTrack.mk tb.2.bbox (tb.2.missed + 1)))) ++
          ((((List.range ds.length).filter
            (fun i => i ∉ (matchPairs s ds).map Prod.snd)).enum.map
              (fun (q : ℕ × ℕ) => (s.nextId + q.1, ds.getD q.2 default))).map
            (fun (p : ℕ × Box) => (p.1, RTrack.mk p.2 0)))).filter
          (fun (tb : ℕ × RTrack) => tb.2.missed ≤ s.maxMissed)).map
          Prod.fst).Sublist
        (rkeys s ++ (List.range (((List.range ds.length).filter
          (fun i => i ∉ (matchPairs s ds).map Prod.snd)).length)).map
          (fun k => s.nextId + k)) := by
      refine List.Sublist.trans
        (List.Sublist.map Prod.fst (List.filter_sublist _)) ?_
      rw [List.map_append, rupdate_keys_split_aux, rnews_keys]
      exact List.Sublist.refl _
    exact h

theorem rupdate_nextId_mono (s : RState) (ds : List Box) :
    s.nextId ≤ (update s ds).1.nextId := by
  obtain ⟨n, hn, _⟩ := rupdate_keys_split s ds
  omega

theorem rupdate_fresh (s : RState) (ds : List Box) :
    ∀ k ∈ rkeys (update s ds).1, k ∈ rkeys s ∨ s.nextId ≤ k := by
  obtain ⟨n, hn, hsub⟩ := rupdate_keys_split s ds
  intro k hk
  have hk2 : k ∈ rkeys s ++ (List.range n).map (fun j => s.nextId + j) :=
    hsub.subset hk
  rcases List.mem_append.mp hk2 with h1 | h1
  · exact Or.inl h1
  · exact Or.inr (SideTracker.news_keys_bounds s.nextId n k h1).1

theorem rupdate_inv (s : RState) (ds : List Box) (h : RInv s) :
    RInv (update s ds).1 := by
  obtain ⟨hpw, hbd⟩ := h
  obtain ⟨n, hn, hsub⟩ := rupdate_keys_split s ds
  have hbig : (rkeys s ++
      (List.range n).map (fun j => s.nextId + j)).Pairwise (· < ·) := by
    rw [List.pairwise_append]
    refine ⟨hpw, SideTracker.news_keys_pairwise s.nextId n, ?_⟩
    intro a ha b hb
    have h1 : a < s.nextId := hbd a ha
    have h2 := (SideTracker.news_keys_bounds s.nextId n b hb).1
    omega
  constructor
  · exact hbig.sublist hsub
  · intro k hk
    show k < (update s ds).1.nextId
    rw [hn]
    have hk2 := hsub.subset hk
    rcases List.mem_append.mp hk2 with h1 | h1
    · have := hbd k h1
      omega
    · exact (SideTracker.news_keys_bounds s.nextId n k h1).2

theorem runRUpdates_cons (s : RState) (ds : List Box)
    (rest : List (List Box)) :
    runRUpdates s (ds :: rest) = runRUpdates (update s ds).1 rest := rfl

theorem runRUpdates_inv (dss : List (List Box)) :
    ∀ s : RState, RInv s → RInv (runRUpdates s dss) := by
  induction dss with
  | nil => intro s h; exact h
  | cons ds rest ih =>
    intro s h
    rw [runRUpdates_cons]
    exact ih _ (rupdate_inv s ds h)

theorem runRUpdates_nextId_mono (dss : List (List Box)) :
    ∀ s : RState, s.nextId ≤ (runRUpdates s dss).nextId := by
  induction dss with
  | nil => intro s; exact le_rfl
  | cons ds rest ih =>
    intro s
    rw [runRUpdates_cons]
    exact le_trans (rupdate_nextId_mono s ds) (ih _)

theorem runRUpdates_fresh (dss : List (List Box)) :
    ∀ (s : RState) (k : ℕ), k ∈ rkeys (runRUpdates s dss) →
      k ∈ rkeys s ∨ s.nextId ≤ k := by
  induction dss with
  | nil => intro s k hk; exact Or.inl hk
  | cons ds rest ih =>
    intro s k hk
    rw [runRUpdates_cons] at hk
    rcases ih _ k hk with h1 | h1
    · exact rupdate_fresh s ds k h1
    · exact Or.inr (le_trans (rupdate_nextId_mono s ds) h1)

theorem rinit_inv (thr : ℚ) (maxM : ℕ) : RInv (rinit thr maxM) := by
  constructor
  · simp [rinit, rkeys]
  · intro k hk
    simp [rinit, rkeys] at hk

end RingTracker

/-- C5: for both trackers, after any sequence of update calls from a fresh
tracker the live track ids are pairwise distinct; and once an id that was
live after some prefix of updates has been deleted (absent after further
updates), it never returns to the live set no matter how many more updates
run - deleted ids are never reused. -/
theorem id_uniqueness :
    ∀ (thr : ℚ) (maxM d : ℕ),
      (∀ inputs1 inputs2 inputs3 : List SideTracker.UpdIn,
        ((SideTracker.keys (SideTracker.runUpdates (SideTracker.runUpdates
            (SideTracker.runUpdates (SideTracker.initState thr maxM) inputs1)
            inputs2) inputs3)).Pairwise (· ≠ ·)) ∧
          (d ∈ SideTracker.keys
              (SideTracker.runUpdates (SideTracker.initState thr maxM)
                inputs1) →
            d ∉ SideTracker.keys (SideTracker.runUpdates
              (SideTracker.runUpdates (SideTracker.initState thr maxM)
                inputs1) inputs2) →
            d ∉ SideTracker.keys (SideTracker.runUpdates
              (SideTracker.runUpdates (SideTracker.runUpdates
                (SideTracker.initState thr maxM) inputs1) inputs2)
              inputs3))) ∧
      (∀ dss1 dss2 dss3 : List (List Box),
        ((RingTracker.rkeys (RingTracker.runRUpdates (RingTracker.runRUpdates
            (RingTracker.runRUpdates (RingTracker.rinit thr maxM) dss1)
            dss2) dss3)).Pairwise (· ≠ ·)) ∧
          (d ∈ RingTracker.rkeys
              (RingTracker.runRUpdates (RingTracker.rinit thr maxM) dss1) →
            d ∉ RingTracker.rkeys (RingTracker.runRUpdates
              (RingTracker.runRUpdates (RingTracker.rinit thr maxM) dss1)
              dss2) →
            d ∉ RingTracker.rkeys (RingTracker.runRUpdates
              (RingTracker.runRUpdates (RingTracker.runRUpdates
                (RingTracker.rinit thr maxM) dss1) dss2) dss3))) := by
  intro thr maxM d
  constructor
  · intro inputs1 inputs2 inputs3
    have hinv1 : SideTracker.Inv
        (SideTracker.runUpdates (SideTracker.initState thr maxM) inputs1) :=
      SideTracker.runUpdates_inv inputs1 _ (SideTracker.initState_inv thr maxM)
    have hinv3 : SideTracker.Inv (SideTracker.runUpdates
        (SideTracker.runUpdates (SideTracker.runUpdates
          (SideTracker.initState thr maxM) inputs1) inputs2) inputs3) :=
      SideTracker.runUpdates_inv inputs3 _
        (SideTracker.runUpdates_inv inputs2 _ hinv1)
    constructor
    · exact hinv3.1.imp (fun h => Nat.ne_of_lt h)
    · intro hd hnot hcon
      have hdlt : d < (SideTracker.runUpdates (SideTracker.initState thr maxM)
          inputs1).nextId := hinv1.2 d hd
      have hmono : (SideTracker.runUpdates (SideTracker.initState thr maxM)
            inputs1).nextId ≤
          (SideTracker.runUpdates (SideTracker.runUpdates
            (SideTracker.initState thr maxM) inputs1) inputs2).nextId :=
        SideTracker.runUpdates_nextId_mono inputs2 _
      rcases SideTracker.runUpdates_fresh inputs3 _ d hcon with h1 | h1
      · exact hnot h1
      · omega
  · intro dss1 dss2 dss3
    have hinv1 : RingTracker.RInv
        (RingTracker.runRUpdates (RingTracker.rinit thr maxM) dss1) :=
      RingTracker.runRUpdates_inv dss1 _ (RingTracker.rinit_inv thr maxM)
    have hinv3 : RingTracker.RInv (RingTracker.runRUpdates
        (RingTracker.runRUpdates (RingTracker.runRUpdates
          (RingTracker.rinit thr maxM) dss1) dss2) dss3) :=
      RingTracker.runRUpdates_inv dss3 _
        (RingTracker.runRUpdates_inv dss2 _ hinv1)
    constructor
    · exact hinv3.1.imp (fun h => Nat.ne_of_lt h)
    · intro hd hnot hcon
      have hdlt : d < (RingTracker.runRUpdates (RingTracker.rinit thr maxM)
          dss1).nextId := hinv1.2 d hd
      have hmono : (RingTracker.runRUpdates (RingTracker.rinit thr maxM)
            dss1).nextId ≤
          (RingTracker.runRUpdates (RingTracker.runRUpdates
            (RingTracker.rinit thr maxM) dss1) dss2).nextId :=
        RingTracker.runRUpdates_nextId_mono dss2 _
      rcases RingTracker.runRUpdates_fresh dss3 _ d hcon with h1 | h1
      · exact hnot h1
      · omega

/-- Witness for id_uniqueness: in both trackers with max_missed 0, id 1 is
live after a first single-detection update and evicted by an empty update;
the theorem then rules it out of the live set after any third update - in
particular after one that creates a fresh track. -/
theorem id_uniqueness_witness :
    ((1 : ℕ) ∈ SideTracker.keys (SideTracker.runUpdates
        (SideTracker.initState (3/10) 0) [⟨0, [⟨0, 0, 10, 10⟩], [0], [1]⟩]) ∧
      (1 : ℕ) ∉ SideTracker.keys (SideTracker.runUpdates
        (SideTracker.runUpdates (SideTracker.initState (3/10) 0)
          [⟨0, [⟨0, 0, 10, 10⟩], [0], [1]⟩]) [⟨1, [], [], []⟩]) ∧
      (1 : ℕ) ∉ SideTracker.keys (SideTracker.runUpdates
        (SideTracker.runUpdates (SideTracker.runUpdates
          (SideTracker.initState (3/10) 0) [⟨0, [⟨0, 0, 10, 10⟩], [0], [1]⟩])
          [⟨1, [], [], []⟩]) [⟨2, [⟨0, 0, 10, 10⟩], [0], [1]⟩])) ∧
    ((1 : ℕ) ∈ RingTracker.rkeys (RingTracker.runRUpdates
        (RingTracker.rinit (3/10) 0) [[⟨0, 0, 10, 10⟩]]) ∧
      (1 : ℕ) ∉ RingTracker.rkeys (RingTracker.runRUpdates
        (RingTracker.runRUpdates (RingTracker.rinit (3/10) 0)
          [[⟨0, 0, 10, 10⟩]]) [[]]) ∧
      (1 : ℕ) ∉ RingTracker.rkeys (RingTracker.runRUpdates
        (RingTracker.runRUpdates (RingTracker.runRUpdates
          (RingTracker.rinit (3/10) 0) [[⟨0, 0, 10, 10⟩]]) [[]])
        [[⟨0, 0, 10, 10⟩]])) := by
  have hmemS : (1 : ℕ) ∈ SideTracker.keys (SideTracker.runUpdates
      (SideTracker.initState (3/10) 0) [⟨0, [⟨0, 0, 10, 10⟩], [0], [1]⟩]) := by
    rw [show SideTracker.keys (SideTracker.runUpdates
      (SideTracker.initState (3/10) 0) [⟨0, [⟨0, 0, 10, 10⟩], [0], [1]⟩]) =
      [1] from rfl]
    exact List.mem_singleton.mpr rfl
  have hnotS : (1 : ℕ) ∉ SideTracker.keys (SideTracker.runUpdates
      (SideTracker.runUpdates (SideTracker.initState (3/10) 0)
        [⟨0, [⟨0, 0, 10, 10⟩], [0], [1]⟩]) [⟨1, [], [], []⟩]) := by
    rw [show SideTracker.keys (SideTracker.runUpdates
      (SideTracker.runUpdates (SideTracker.initState (3/10) 0)
        [⟨0, [⟨0, 0, 10, 10⟩], [0], [1]⟩]) [⟨1, [], [], []⟩]) =
      ([] : List ℕ) from rfl]
    exact List.not_mem_nil 1
  have hmemR : (1 : ℕ) ∈ RingTracker.rkeys (RingTracker.runRUpdates
      (RingTracker.rinit (3/10) 0) [[⟨0, 0, 10, 10⟩]]) := by
    rw [show RingTracker.rkeys (RingTracker.runRUpdates
      (RingTracker.rinit (3/10) 0) [[⟨0, 0, 10, 10⟩]]) = [1] from rfl]
    exact List.mem_singleton.mpr rfl
  have hnotR : (1 : ℕ) ∉ RingTracker.rkeys (RingTracker.runRUpdates
      (RingTracker.runRUpdates (RingTracker.rinit (3/10) 0)
        [[⟨0, 0, 10, 10⟩]]) [[]]) := by
    rw [show RingTracker.rkeys (RingTracker.runRUpdates
      (RingTracker.runRUpdates (RingTracker.rinit (3/10) 0)
        [[⟨0, 0, 10, 10⟩]]) [[]]) = ([] : List ℕ) from rfl]
    exact List.not_mem_nil 1
  exact ⟨⟨hmemS, hnotS,
      ((id_uniqueness (3/10) 0 1).1 [⟨0, [⟨0, 0, 10, 10⟩], [0], [1]⟩]
        [⟨1, [], [], []⟩] [⟨2, [⟨0, 0, 10, 10⟩], [0], [1]⟩]).2 hmemS hnotS⟩,
    ⟨hmemR, hnotR,
      ((id_uniqueness (3/10) 0 1).2 [[⟨0, 0, 10, 10⟩]] [[]]
        [[⟨0, 0, 10, 10⟩]]).2 hmemR hnotR⟩⟩

namespace SideTracker

theorem bestTrack_lt (mat : ℕ → ℕ → ℚ) (d : ℕ) (thr : ℚ) (claimed : List ℕ)
    (nT : ℕ) : ∀ t, bestTrack mat d thr claimed nT = some t → t < nT := by
  have haux : ∀ (l : List ℕ) (acc : ℚ × Option ℕ),
      (∀ t, acc.2 = some t → t < nT) → (∀ x ∈ l, x < nT) →
      ∀ t, ((l.foldl (fun acc t =>
        if t ∈ claimed then acc
        else if mat d t > acc.1 then (mat d t, some t) else acc) acc).2 =
          some t) → t < nT := by
    intro l
    induction l with
    | nil => intro acc hacc hl t ht; exact hacc t ht
    | cons x rest ih =>
      intro acc hacc hl t ht
      rw [List.foldl_cons] at ht
      refine ih _ ?_ (fun y hy => hl y (List.mem_cons_of_mem _ hy)) t ht
      intro t' ht'
      by_cases hx : x ∈ claimed
      · rw [if_pos hx] at ht'
        exact hacc t' ht'
      · rw [if_neg hx] at ht'
        by_cases hgt : mat d x > acc.1
        · rw [if_pos hgt] at ht'
          simp at ht'
          rw [← ht']
          exact hl x (List.mem_cons_self _ _)
        · rw [if_neg hgt] at ht'
          exact hacc t' ht'
  intro t ht
  exact haux (List.range nT) (thr, none) (by simp)
    (fun x hx => List.mem_range.mp hx) t ht

theorem greedyMatch_pos_lt (mat : ℕ → ℕ → ℚ) (thr : ℚ) (nD nT : ℕ) :
    ∀ p ∈ greedyMatch mat thr nD nT, p.2 < nT := by
  have haux : ∀ (l : List ℕ) (acc : List (ℕ × ℕ)),
      (∀ p ∈ acc, p.2 < nT) →
      ∀ p ∈ l.foldl (fun acc d =>
        match bestTrack mat d thr (acc.map Prod.snd) nT with
        | some t => acc ++ [(d, t)]
        | none => acc) acc, p.2 < nT := by
    intro l
    induction l with
    | nil => intro acc hacc p hp; exact hacc p hp
    | cons d rest ih =>
      intro acc hacc p hp
      rw [List.foldl_cons] at hp
      refine ih _ ?_ p hp
      intro q hq
      cases hb : bestTrack mat d thr (acc.map Prod.snd) nT with
      | some t =>
        rw [hb] at hq
        rcases List.mem_append.mp hq with h1 | h1
        · exact hacc q h1
        · have : q = (d, t) := List.mem_singleton.mp h1
          rw [this]
          exact bestTrack_lt mat d thr _ nT t hb
      | none =>
        rw [hb] at hq
        exact hacc q hq
  exact haux (List.range nD) [] (by simp)

theorem matchedPairs_pos_lt (s : TState) (dets : List Box) :
    ∀ p ∈ matchedPairs s dets, p.2 < s.tracks.length := by
  intro p hp
  unfold matchedPairs at hp
  by_cases h : s.tracks.isEmpty = true
  · rw [if_pos h] at hp
    simp at hp
  · rw [if_neg h] at hp
    exact greedyMatch_pos_lt _ _ _ _ p hp

theorem find?_ageAndApply_none (M : List (ℕ × ℕ)) (maxM : ℕ)
    (f : ℕ → TrackData) (tid : ℕ) :
    ∀ (l : List (ℕ × TrackData)) (j : ℕ), tid ∉ l.map Prod.fst →
      ((ageAndApply M maxM f j l).find? (fun tb => tb.1 = tid)) = none := by
  intro l j hnot
  rw [List.find?_eq_none]
  intro tb htb
  have hkey : tb.1 ∈ (ageAndApply M maxM f j l).map Prod.fst :=
    List.mem_map_of_mem Prod.fst htb
  have hsub := ageAndApply_keys_sublist M maxM f l j
  simp only [decide_eq_true_eq]
  intro heq
  exact hnot (heq ▸ hsub.subset hkey)

theorem find?_ageAll_none (maxM : ℕ) (tid : ℕ) :
    ∀ l : List (ℕ × TrackData), tid ∉ l.map Prod.fst →
      ((ageAll maxM l).find? (fun tb => tb.1 = tid)) = none := by
  intro l hnot
  rw [List.find?_eq_none]
  intro tb htb
  have hkey : tb.1 ∈ (ageAll maxM l).map Prod.fst :=
    List.mem_map_of_mem Prod.fst htb
  have hsub := ageAll_keys_sublist maxM l
  simp only [decide_eq_true_eq]
  intro heq
  exact hnot (heq ▸ hsub.subset hkey)

end SideTracker

namespace SideTracker

theorem ageAll_cons (maxM : ℕ) (tb : ℕ × TrackData)
    (rest : List (ℕ × TrackData)) :
    ageAll maxM (tb :: rest) =
      (if tb.2.missedCount + 1 > maxM then ageAll maxM rest
       else (tb.1, { tb.2 with missedCount := tb.2.missedCount + 1 }) ::
         ageAll maxM rest) := by
  by_cases h : tb.2.missedCount + 1 > maxM
  · rw [if_pos h]
    unfold ageAll
    rw [List.filterMap_cons, if_pos h]
  · rw [if_neg h]
    unfold ageAll
    rw [List.filterMap_cons, if_neg h]

/-- Aging of one entry: the value an unmatched live entry maps to. -/
theorem find?_ageAll (maxM : ℕ) (tid : ℕ) :
    ∀ l : List (ℕ × TrackData), (l.map Prod.fst).Nodup →
      ((ageAll maxM l).find? (fun tb => tb.1 = tid)) =
        (l.find? (fun tb => tb.1 = tid)).bind
          (fun tb => if tb.2.missedCount + 1 > maxM then none
            else some (tb.1, { tb.2 with missedCount := tb.2.missedCount + 1 })) := by
  intro l
  induction l with
  | nil => intro _; simp [ageAll]
  | cons tb rest ih =>
    intro hnd
    rw [List.map_cons, List.nodup_cons] at hnd
    obtain ⟨hhd, htl⟩ := hnd
    rw [ageAll_cons]
    by_cases hdrop : tb.2.missedCount + 1 > maxM
    · rw [if_pos hdrop]
      by_cases hkey : tb.1 = tid
      · rw [List.find?_cons_of_pos _ (by simp [hkey])]
        rw [find?_ageAll_none maxM tid rest (by rw [← hkey]; exact hhd)]
        simp [hdrop]
      · rw [List.find?_cons_of_neg _ (by simp [hkey])]
        exact ih htl
    · rw [if_neg hdrop]
      by_cases hkey : tb.1 = tid
      · rw [List.find?_cons_of_pos _ (by simp [hkey]),
          List.find?_cons_of_pos _ (by simp [hkey])]
        simp [hdrop]
      · rw [List.find?_cons_of_neg _ (by simp [hkey]),
          List.find?_cons_of_neg _ (by simp [hkey])]
        exact ih htl

/-- Characterization of the combined rewrite/aging pass for an id whose
positions are all unmatched: the entry ages by one and is dropped once over
the limit, exactly as in the zero-detection branch. -/
theorem find?_ageAndApply (M : List (ℕ × ℕ)) (maxM : ℕ) (f : ℕ → TrackData)
    (tid : ℕ) :
    ∀ (l : List (ℕ × TrackData)) (j : ℕ),
      (l.map Prod.fst).Nodup →
      (∀ i, (hi : i < l.length) → (l.get ⟨i, hi⟩).1 = tid →
        M.find? (fun p => p.2 = j + i) = none) →
      ((ageAndApply M maxM f j l).find? (fun tb => tb.1 = tid)) =
        (l.find? (fun tb => tb.1 = tid)).bind
          (fun tb => if tb.2.missedCount + 1 > maxM then none
            else some (tb.1, { tb.2 with missedCount := tb.2.missedCount + 1 })) := by
  intro l
  induction l with
  | nil => intro j _ _; simp [ageAndApply]
  | cons tb rest ih =>
    intro j hnd hpos
    rw [List.map_cons, List.nodup_cons] at hnd
    obtain ⟨hhd, htl⟩ := hnd
    have hpos' : ∀ i, (hi : i < rest.length) → (rest.get ⟨i, hi⟩).1 = tid →
        M.find? (fun p => p.2 = (j + 1) + i) = none := by
      intro i hi hget
      have := hpos (i + 1) (by simpa using Nat.succ_lt_succ hi) (by simpa using hget)
      have harith : j + (i + 1) = (j + 1) + i := by omega
      rw [harith] at this
      exact this
    unfold ageAndApply
    cases hf : M.find? (fun p => p.2 = j) with
    | some p =>
      dsimp only
      by_cases hkey : tb.1 = tid
      · exfalso
        have := hpos 0 (by simp) (by simpa using hkey)
        rw [Nat.add_zero] at this
        rw [this] at hf
        exact Option.noConfusion hf
      · rw [List.find?_cons_of_neg _ (by simp [hkey]),
          List.find?_cons_of_neg _ (by simp [hkey])]
        exact ih (j + 1) htl hpos'
    | none =>
      dsimp only
      by_cases hdrop : tb.2.missedCount + 1 > maxM
      · rw [if_pos hdrop]
        by_cases hkey : tb.1 = tid
        · rw [List.find?_cons_of_pos _ (by simp [hkey])]
          rw [find?_ageAndApply_none M maxM f tid rest (j + 1)
            (by rw [← hkey]; exact hhd)]
          simp [hdrop]
        · rw [List.find?_cons_of_neg _ (by simp [hkey])]
          exact ih (j + 1) htl hpos'
      · rw [if_neg hdrop]
        by_cases hkey : tb.1 = tid
        · rw [List.find?_cons_of_pos _ (by simp [hkey]),
            List.find?_cons_of_pos _ (by simp [hkey])]
          simp [hdrop]
        · rw [List.find?_cons_of_neg _ (by simp [hkey]),
            List.find?_cons_of_neg _ (by simp [hkey])]
          exact ih (j + 1) htl hpos'

end SideTracker

namespace SideTracker

theorem find?_fresh_none (c tid : ℕ) (h : tid < c) (l : List (ℕ × ℕ))
    (nd : ℕ → TrackData) :
    (((l.map (fun q => (c + q.1, q.2))).map (fun p => (p.1, nd p.2))).find?
      (fun tb => tb.1 = tid)) = none := by
  rw [List.find?_eq_none]
  intro tb htb
  simp only [List.mem_map] at htb
  obtain ⟨p, ⟨q, hq, hqe⟩, hpe⟩ := htb
  subst hpe
  subst hqe
  simp only [decide_eq_true_eq]
  omega

theorem update_maxM (s : TState) (inp : UpdIn) :
    (update s inp).1.maxMissedFrames = s.maxMissedFrames := by
  unfold update
  split <;> rfl

theorem runUpdates_maxM (inputs : List UpdIn) :
    ∀ s : TState, (runUpdates s inputs).maxMissedFrames = s.maxMissedFrames := by
  induction inputs with
  | nil => intro s; rfl
  | cons i rest ih =>
    intro s
    rw [runUpdates_cons, ih, update_maxM]

theorem lookupTrack_find? (s : TState) (tid : ℕ) (tr : TrackData)
    (h : lookupTrack s tid = some tr) :
    s.tracks.find? (fun tb => tb.1 = tid) = some (tid, tr) ∧ tid ∈ keys s := by
  unfold lookupTrack at h
  cases hf : s.tracks.find? (fun tb => tb.1 = tid) with
  | none => rw [hf] at h; simp at h
  | some tb =>
    rw [hf] at h
    have h1 := List.find?_some hf
    rw [decide_eq_true_eq] at h1
    have h2 := List.mem_of_find?_eq_some hf
    have hb : tb.2 = tr := by
      have hmap : (some tb).map Prod.snd = some tr := h
      simpa using hmap
    have htb : tb = (tid, tr) := by
      obtain ⟨a, b⟩ := tb
      simp only at h1 hb
      rw [h1, hb]
    constructor
    · exact congrArg some htb
    · exact h1 ▸ List.mem_map_of_mem Prod.fst h2

theorem find?_keyed_write (tid k : ℕ) (hne : tid ≠ k)
    (w : List HistEntry → List HistEntry) (newv : List HistEntry) :
    ∀ h : List (ℕ × List HistEntry),
      ((if h.any (fun p => p.1 = k) then
          h.map (fun p => if p.1 = k then (p.1, w p.2) else p)
        else h ++ [(k, newv)]).find? (fun q => q.1 = tid)) =
        h.find? (fun q => q.1 = tid) := by
  intro h
  by_cases hany : h.any (fun p => p.1 = k) = true
  · rw [if_pos hany]
    clear hany
    induction h with
    | nil => rfl
    | cons p rest ih =>
      rw [List.map_cons]
      by_cases hp : p.1 = k
      · rw [if_pos hp]
        rw [List.find?_cons_of_neg _ (by simp; omega),
          List.find?_cons_of_neg _ (by simp; omega)]
        exact ih
      · rw [if_neg hp]
        by_cases hptid : p.1 = tid
        · rw [List.find?_cons_of_pos _ (by simp [hptid]),
            List.find?_cons_of_pos _ (by simp [hptid])]
        · rw [List.find?_cons_of_neg _ (by simp [hptid]),
            List.find?_cons_of_neg _ (by simp [hptid])]
          exact ih
  · rw [if_neg hany]
    rw [List.find?_append]
    rw [show ([(k, newv)].find? (fun q => q.1 = tid)) = none from by
      rw [List.find?_eq_none]
      intro x hx
      rw [List.mem_singleton] at hx
      subst hx
      simp
      omega]
    rw [Option.or_none]

theorem histAppend_find?_ne (h : List (ℕ × List HistEntry)) (k : ℕ)
    (e : HistEntry) (tid : ℕ) (hne : tid ≠ k) :
    (histAppend h k e).find? (fun q => q.1 = tid) =
      h.find? (fun q => q.1 = tid) :=
  find?_keyed_write tid k hne (fun l => cap100 (l ++ [e])) (cap100 [e]) h

theorem histSet_find?_ne (h : List (ℕ × List HistEntry)) (k : ℕ)
    (es : List HistEntry) (tid : ℕ) (hne : tid ≠ k) :
    (histSet h k es).find? (fun q => q.1 = tid) =
      h.find? (fun q => q.1 = tid) :=
  find?_keyed_write tid k hne (fun _ => es) es h

theorem find?_foldl_histAppend (tid : ℕ) (g : ℕ × ℕ → ℕ)
    (e : ℕ × ℕ → HistEntry) :
    ∀ (M : List (ℕ × ℕ)) (base : List (ℕ × List HistEntry)),
      (∀ p ∈ M, g p ≠ tid) →
      ((M.foldl (fun h p => histAppend h (g p) (e p)) base).find?
        (fun q => q.1 = tid)) = base.find? (fun q => q.1 = tid) := by
  intro M
  induction M with
  | nil => intro base _; rfl
  | cons p rest ih =>
    intro base hg
    rw [List.foldl_cons]
    rw [ih _ (fun q hq => hg q (List.mem_cons_of_mem _ hq))]
    exact histAppend_find?_ne base (g p) (e p) tid
      (fun hh => hg p (List.mem_cons_self _ _) hh.symm)

theorem find?_foldl_histSet (tid : ℕ) (es : ℕ × ℕ → List HistEntry) :
    ∀ (news : List (ℕ × ℕ)) (base : List (ℕ × List HistEntry)),
      (∀ p ∈ news, p.1 ≠ tid) →
      ((news.foldl (fun h p => histSet h p.1 (es p)) base).find?
        (fun q => q.1 = tid)) = base.find? (fun q => q.1 = tid) := by
  intro news
  induction news with
  | nil => intro base _; rfl
  | cons p rest ih =>
    intro base hg
    rw [List.foldl_cons]
    rw [ih _ (fun q hq => hg q (List.mem_cons_of_mem _ hq))]
    exact histSet_find?_ne base p.1 (es p) tid
      (fun hh => hg p (List.mem_cons_self _ _) hh.symm)

end SideTracker

namespace SideTracker

theorem lookupTrack_update_unmatched (s : TState) (inp : UpdIn) (tid : ℕ)
    (tr : TrackData) (hinv : Inv s) (hmem : lookupTrack s tid = some tr)
    (hunm : tid ∉ matchedIds s inp.dets) :
    lookupTrack (update s inp).1 tid =
      (if tr.missedCount + 1 > s.maxMissedFrames then none
       else some { tr with missedCount := tr.missedCount + 1 }) := by
  obtain ⟨hfind, hkeymem⟩ := lookupTrack_find? s tid tr hmem
  have hnodup : (s.tracks.map Prod.fst).Nodup :=
    hinv.1.imp (fun h => Nat.ne_of_lt h)
  have htidlt : tid < s.nextId := hinv.2 tid hkeymem
  have hposM : ∀ i, (hi : i < s.tracks.length) →
      (s.tracks.get ⟨i, hi⟩).1 = tid →
      (matchedPairs s inp.dets).find? (fun p => p.2 = 0 + i) = none := by
    intro i hi hget
    cases hfM : (matchedPairs s inp.dets).find? (fun p => p.2 = 0 + i) with
    | none => rfl
    | some p =>
      exfalso
      have hp2 : p.2 = 0 + i := by
        have := List.find?_some hfM
        rwa [decide_eq_true_eq] at this
      have hpM := List.mem_of_find?_eq_some hfM
      apply hunm
      unfold matchedIds
      refine List.mem_map.mpr ⟨p, hpM, ?_⟩
      rw [hp2]
      rw [show (0 : ℕ) + i = i from by omega]
      rw [List.getD_eq_getElem s.tracks default hi]
      exact hget
  unfold update
  by_cases hde : inp.dets.isEmpty = true
  · rw [if_pos hde]
    unfold lookupTrack
    dsimp only
    rw [find?_ageAll s.maxMissedFrames tid s.tracks hnodup]
    rw [hfind]
    by_cases hdrop : tr.missedCount + 1 > s.maxMissedFrames
    · simp [hdrop]
    · simp [hdrop]
  · rw [if_neg hde]
    unfold lookupTrack
    dsimp only
    rw [List.find?_append]
    rw [find?_ageAndApply (matchedPairs s inp.dets) s.maxMissedFrames _ tid
      s.tracks 0 hnodup hposM]
    rw [hfind]
    rw [find?_fresh_none s.nextId tid htidlt
      ((List.range inp.dets.length).filter
        (fun d => d ∉ (matchedPairs s inp.dets).map Prod.fst)).enum
      (fun d => TrackData.mk (inp.dets.getD d default) 0
        (inp.classIds.getD d 0) (inp.confs.getD d 0))]
    by_cases hdrop : tr.missedCount + 1 > s.maxMissedFrames
    · simp [hdrop]
    · simp [hdrop]

end SideTracker

namespace SideTracker

theorem lookupHist_update_unmatched (s : TState) (inp : UpdIn) (tid : ℕ)
    (tr : TrackData) (hinv : Inv s) (hmem : lookupTrack s tid = some tr)
    (hunm : tid ∉ matchedIds s inp.dets) :
    lookupHist (update s inp).1 tid = lookupHist s tid := by
  obtain ⟨hfind, hkeymem⟩ := lookupTrack_find? s tid tr hmem
  have htidlt : tid < s.nextId := hinv.2 tid hkeymem
  unfold update
  by_cases hde : inp.dets.isEmpty = true
  · rw [if_pos hde]
    rfl
  · rw [if_neg hde]
    unfold lookupHist
    dsimp only
    rw [find?_foldl_histSet tid
      (fun p => [HistEntry.mk (inp.dets.getD p.2 default) inp.now
        (inp.classIds.getD p.2 0) (inp.confs.getD p.2 0)])
      (((List.range inp.dets.length).filter
        (fun d => d ∉ (matchedPairs s inp.dets).map Prod.fst)).enum.map
          (fun q => (s.nextId + q.1, q.2)))
      _ ?hnews]
    rw [find?_foldl_histAppend tid
      (fun p => (s.tracks.getD p.2 default).1)
      (fun p => HistEntry.mk (inp.dets.getD p.1 default) inp.now
        (inp.classIds.getD p.1 0) (inp.confs.getD p.1 0))
      (matchedPairs s inp.dets) s.trackHistory ?hM]
    case hnews =>
      intro p hp
      obtain ⟨q, hq, hqe⟩ := List.mem_map.mp hp
      subst hqe
      simp only
      omega
    case hM =>
      intro p hp heq
      apply hunm
      unfold matchedIds
      exact List.mem_map.mpr ⟨p, hp, heq⟩

end SideTracker

namespace SideTracker

theorem runUpdates_append (s : TState) (l1 l2 : List UpdIn) :
    runUpdates s (l1 ++ l2) = runUpdates (runUpdates s l1) l2 := by
  unfold runUpdates
  rw [List.foldl_append]

theorem lookupTrack_run_unmatched (inputs : List UpdIn) :
    ∀ (s : TState) (tid : ℕ) (tr : TrackData),
      Inv s → lookupTrack s tid = some tr →
      (∀ k, (hk : k < inputs.length) →
        tid ∉ matchedIds (runUpdates s (inputs.take k))
          (inputs.get ⟨k, hk⟩).dets) →
      tr.missedCount + inputs.length ≤ s.maxMissedFrames →
      lookupTrack (runUpdates s inputs) tid =
        some { tr with missedCount := tr.missedCount + inputs.length } := by
  induction inputs with
  | nil =>
    intro s tid tr hinv hmem hum hle
    show lookupTrack s tid = _
    rw [hmem]
    obtain ⟨b, m, c, f⟩ := tr
    simp
  | cons i rest ih =>
    intro s tid tr hinv hmem hum hle
    rw [runUpdates_cons]
    have hum0 : tid ∉ matchedIds s i.dets := hum 0 (by simp)
    have hstep := lookupTrack_update_unmatched s i tid tr hinv hmem hum0
    rw [if_neg (by simp only [List.length_cons] at hle; omega)] at hstep
    have hshift : ∀ k, (hk : k < rest.length) →
        tid ∉ matchedIds (runUpdates (update s i).1 (rest.take k))
          (rest.get ⟨k, hk⟩).dets := by
      intro k hk
      have h1 := hum (k + 1) (by simp only [List.length_cons]; omega)
      rw [List.take_succ_cons, runUpdates_cons] at h1
      exact h1
    have hbound : ({ tr with missedCount := tr.missedCount + 1} :
        TrackData).missedCount + rest.length ≤
          (update s i).1.maxMissedFrames := by
      rw [update_maxM]
      simp only [List.length_cons] at hle
      simp only
      omega
    have hres := ih (update s i).1 tid { tr with missedCount := tr.missedCount + 1 }
      (update_inv s i hinv) hstep hshift hbound
    rw [hres]
    have harith : tr.missedCount + 1 + rest.length =
        tr.missedCount + (i :: rest).length := by
      simp only [List.length_cons]
      omega
    exact congrArg (fun n => some { tr with missedCount := n }) harith

end SideTracker

/-- C3: a live track that is freshly matched or created (missed_count 0) and
then receives no matching detection in max_missed_frames + 1 consecutive
updates is still live after each of the first max_missed_frames of them, with
missed_count incremented to k after the k-th, and is absent from the live set
after the last one. -/
theorem eviction_timing :
    ∀ (s : SideTracker.TState) (tid : ℕ) (tr : SideTracker.TrackData)
      (inputs : List SideTracker.UpdIn),
      SideTracker.Inv s →
      SideTracker.lookupTrack s tid = some tr →
      tr.missedCount = 0 →
      inputs.length = s.maxMissedFrames + 1 →
      (∀ k, (hk : k < inputs.length) →
        tid ∉ SideTracker.matchedIds
          (SideTracker.runUpdates s (inputs.take k))
          (inputs.get ⟨k, hk⟩).dets) →
      (∀ k, 1 ≤ k → k ≤ s.maxMissedFrames →
        SideTracker.lookupTrack
            (SideTracker.runUpdates s (inputs.take k)) tid =
          some { tr with missedCount := k }) ∧
        SideTracker.lookupTrack (SideTracker.runUpdates s inputs) tid =
          none := by
  intro s tid tr inputs hinv hmem hm0 hlen hum
  have hstage : ∀ k, k ≤ s.maxMissedFrames →
      SideTracker.lookupTrack (SideTracker.runUpdates s (inputs.take k)) tid =
        some { tr with missedCount := k } := by
    intro k hk
    have hlen' : (inputs.take k).length = k := by
      rw [List.length_take]
      omega
    have hshift : ∀ j, (hj : j < (inputs.take k).length) →
        tid ∉ SideTracker.matchedIds
          (SideTracker.runUpdates s ((inputs.take k).take j))
          ((inputs.take k).get ⟨j, hj⟩).dets := by
      intro j hj
      have hjk : j < k := by omega
      have hjlen : j < inputs.length := by omega
      have h1 := hum j hjlen
      have htt : (inputs.take k).take j = inputs.take j := by
        rw [List.take_take]
        congr 1
        omega
      rw [htt]
      have hget : (inputs.take k).get ⟨j, hj⟩ = inputs.get ⟨j, hjlen⟩ := by
        rw [List.get_eq_getElem, List.get_eq_getElem, List.getElem_take]
      rw [hget]
      exact h1
    have hbound : tr.missedCount + (inputs.take k).length ≤
        s.maxMissedFrames := by
      rw [hlen', hm0]
      omega
    have hrun := SideTracker.lookupTrack_run_unmatched (inputs.take k) s tid tr
      hinv hmem hshift hbound
    have harith : tr.missedCount + (inputs.take k).length = k := by
      rw [hlen', hm0]
      omega
    rw [hrun, harith]
  refine ⟨fun k _ hk2 => hstage k hk2, ?_⟩
  have hmaxlt : s.maxMissedFrames < inputs.length := by omega
  have hdecomp : inputs = inputs.take s.maxMissedFrames ++
      [inputs.get ⟨s.maxMissedFrames, hmaxlt⟩] := by
    have h1 : inputs.take (s.maxMissedFrames + 1) = inputs := by
      rw [← hlen]
      exact List.take_length ..
    have h2 := List.take_succ (l := inputs) (n := s.maxMissedFrames)
    rw [h1] at h2
    conv_lhs => rw [h2]
    congr 1
    rw [List.getElem?_eq_getElem hmaxlt, List.get_eq_getElem]
    rfl
  have hsm := hstage s.maxMissedFrames le_rfl
  have hinvm : SideTracker.Inv
      (SideTracker.runUpdates s (inputs.take s.maxMissedFrames)) :=
    SideTracker.runUpdates_inv _ s hinv
  have humm := hum s.maxMissedFrames hmaxlt
  have hstep := SideTracker.lookupTrack_update_unmatched
    (SideTracker.runUpdates s (inputs.take s.maxMissedFrames))
    (inputs.get ⟨s.maxMissedFrames, hmaxlt⟩) tid
    { tr with missedCount := s.maxMissedFrames } hinvm hsm humm
  rw [if_pos (by
    simp only
    rw [SideTracker.runUpdates_maxM]
    omega)] at hstep
  conv_lhs => rw [hdecomp]
  rw [SideTracker.runUpdates_append]
  exact hstep

theorem matchedIds_nil (s : SideTracker.TState) :
    SideTracker.matchedIds s [] = [] := by
  unfold SideTracker.matchedIds SideTracker.matchedPairs SideTracker.greedyMatch
  by_cases h : s.tracks.isEmpty = true
  · rw [if_pos h]
    rfl
  · rw [if_neg h]
    rfl

/-- Witness for eviction_timing: a track with max_missed_frames 1 survives
one empty update with missed_count 1 and is gone after the second. -/
theorem eviction_timing_witness :
    (∀ k, 1 ≤ k → k ≤ (1 : ℕ) →
      SideTracker.lookupTrack
          (SideTracker.runUpdates
            ⟨3/10, 1, 2, [(1, ⟨⟨0, 0, 10, 10⟩, 0, 0, 1⟩)], []⟩
            (([⟨0, [], [], []⟩, ⟨1, [], [], []⟩] :
              List SideTracker.UpdIn).take k)) 1 =
        some ⟨⟨0, 0, 10, 10⟩, k, 0, 1⟩) ∧
      SideTracker.lookupTrack
        (SideTracker.runUpdates
          ⟨3/10, 1, 2, [(1, ⟨⟨0, 0, 10, 10⟩, 0, 0, 1⟩)], []⟩
          [⟨0, [], [], []⟩, ⟨1, [], [], []⟩]) 1 = none :=
  eviction_timing ⟨3/10, 1, 2, [(1, ⟨⟨0, 0, 10, 10⟩, 0, 0, 1⟩)], []⟩ 1
    ⟨⟨0, 0, 10, 10⟩, 0, 0, 1⟩ [⟨0, [], [], []⟩, ⟨1, [], [], []⟩]
    ⟨by simp [SideTracker.keys],
      by intro k hk; simp [SideTracker.keys] at hk; subst hk; decide⟩
    rfl rfl rfl
    (by
      intro k hk
      have hk2 : k < 2 := by simpa using hk
      interval_cases k
      · show (1 : ℕ) ∉ SideTracker.matchedIds _ []
        rw [matchedIds_nil]
        simp
      · show (1 : ℕ) ∉ SideTracker.matchedIds _ []
        rw [matchedIds_nil]
        simp)

/-- C10 counterexample: with max_missed_frames 0, the track created by the
first update is destroyed by the following empty update, yet its history
entry is still stored afterwards (tracker.py deletes only from self.tracks,
deliberately keeping self.track_history, see the comments at lines 44 and
132). -/
theorem history_destroyed_counterexample :
    SideTracker.lookupTrack
        (SideTracker.update
          (SideTracker.update (SideTracker.initState (3/10) 0)
            ⟨0, [⟨0, 0, 10, 10⟩], [0], [1]⟩).1 ⟨1, [], [], []⟩).1 1 = none ∧
      SideTracker.lookupHist
          (SideTracker.update
            (SideTracker.update (SideTracker.initState (3/10) 0)
              ⟨0, [⟨0, 0, 10, 10⟩], [0], [1]⟩).1 ⟨1, [], [], []⟩).1 1 =
        some [⟨⟨0, 0, 10, 10⟩, 0, 0, 1⟩] ∧
      some [(⟨⟨0, 0, 10, 10⟩, 0, 0, 1⟩ : SideTracker.HistEntry)] ≠ none := by
  refine ⟨?_, ?_, by simp⟩
  · rw [side_update_fresh]
    rfl
  · rw [side_update_fresh]
    rfl

/-- C10 amended: when a track is destroyed because its missed count exceeds
max_missed_frames, it disappears from the live set but its stored history is
retained unchanged (the code deliberately keeps track_history for later
analysis). -/
theorem history_retained_amended :
    ∀ (s : SideTracker.TState) (inp : SideTracker.UpdIn) (tid : ℕ)
      (tr : SideTracker.TrackData),
      SideTracker.Inv s →
      SideTracker.lookupTrack s tid = some tr →
      tid ∉ SideTracker.matchedIds s inp.dets →
      tr.missedCount + 1 > s.maxMissedFrames →
      SideTracker.lookupTrack (SideTracker.update s inp).1 tid = none ∧
        SideTracker.lookupHist (SideTracker.update s inp).1 tid =
          SideTracker.lookupHist s tid := by
  intro s inp tid tr hinv hmem hunm hdrop
  constructor
  · rw [SideTracker.lookupTrack_update_unmatched s inp tid tr hinv hmem hunm,
      if_pos hdrop]
  · exact SideTracker.lookupHist_update_unmatched s inp tid tr hinv hmem hunm

/-- Witness for history_retained_amended: a max_missed_frames 0 tracker with
one stale track and an empty update. -/
theorem history_retained_amended_witness :
    SideTracker.lookupTrack
        (SideTracker.update
          ⟨3/10, 0, 2, [(1, ⟨⟨0, 0, 10, 10⟩, 0, 0, 1⟩)],
            [(1, [⟨⟨0, 0, 10, 10⟩, 0, 0, 1⟩])]⟩ ⟨1, [], [], []⟩).1 1 = none ∧
      SideTracker.lookupHist
          (SideTracker.update
            ⟨3/10, 0, 2, [(1, ⟨⟨0, 0, 10, 10⟩, 0, 0, 1⟩)],
              [(1, [⟨⟨0, 0, 10, 10⟩, 0, 0, 1⟩])]⟩ ⟨1, [], [], []⟩).1 1 =
        SideTracker.lookupHist
          ⟨3/10, 0, 2, [(1, ⟨⟨0, 0, 10, 10⟩, 0, 0, 1⟩)],
            [(1, [⟨⟨0, 0, 10, 10⟩, 0, 0, 1⟩])]⟩ 1 :=
  history_retained_amended
    ⟨3/10, 0, 2, [(1, ⟨⟨0, 0, 10, 10⟩, 0, 0, 1⟩)],
      [(1, [⟨⟨0, 0, 10, 10⟩, 0, 0, 1⟩])]⟩ ⟨1, [], [], []⟩ 1
    ⟨⟨0, 0, 10, 10⟩, 0, 0, 1⟩
    ⟨by simp [SideTracker.keys],
      by intro k hk; simp [SideTracker.keys] at hk; subst hk; decide⟩
    rfl
    (by rw [matchedIds_nil]; simp)
    (by decide)
